import Mathlib

/-!
Minesweeper (`src/mineman/src/App.js`).

A shallow embedding of the game logic of the React component `App`:
board generation (`initializeBoard`, `shuffle`), the click handler
(`handleCellClick`), the flood reveal (`revealAllCells`), the loss reveal
(`revealAllBombs`) and the flag handlers.

Modelling conventions.

* A JavaScript array is a `List`; the board is a list of rows of cells.
* Reading `board[r][c]` is `Board.cell?`; reading a property of `undefined`
  raises a `TypeError`, which is `Err.typeError` in the `Except` monad.  An
  error carries the board (for a handler: the state) as it stands when the
  error is raised: writes to the cell objects and state setters called before
  the `throw` are not undone by it.
* The handlers copy only the outer array (`[...board]`), so the rows and the
  cell objects are shared: every write `newBoard[r][c].f = v` is a write to the
  one board, visible to every later read in the same handler.  The embedding
  therefore threads a single board value through each handler.
* `Math.random` is an oracle `Draws` giving, for the loop index `i` of
  `shuffle`, the value `Math.floor(Math.random() * (i + 1))`, a number in
  `0..i`.  `Date.now()` is a parameter `now`.
* The `while` loop of `revealAllCells` is run with a fuel counter; running out
  of fuel is `Err.outOfFuel`.
-/

namespace Minesweeper

/-- The constant `SIZE` (`const SIZE = 10`). -/
def SIZE : Nat := 10

/-- The constant `NUM_MINES` (`const NUM_MINES = 10`). -/
def NUM_MINES : Nat := 10

/-- The `value` of a cell: the string `'mine'` or a number. -/
inductive Value where
  | mine : Value
  | num : Nat → Value
  deriving DecidableEq, Repr

/-- A cell object `{ row, col, value, revealed, flagged }`. -/
structure Cell where
  row : Nat
  col : Nat
  value : Value
  revealed : Bool
  flagged : Bool
  deriving DecidableEq, Repr

/-- The board: an array of rows, each an array of cells. -/
abbrev Board := List (List Cell)

/-- An entry `{ row, col }` of `flaggedCells`, or the value of `selectedCell`. -/
structure Pos where
  row : Int
  col : Int
  deriving DecidableEq, Repr

/-- The `useState` variables of the component. -/
structure State where
  board : Board
  gameOver : Bool
  isFlagged : Bool
  selectedCell : Option Pos
  startTime : Option Nat
  elapsedTime : Nat
  flaggedCells : List Pos
  deriving DecidableEq, Repr

/-- What a handler can raise: a `TypeError` (a property of `undefined` is read),
or the fuel of the worklist loop is used up. -/
inductive Err where
  | typeError : Err
  | outOfFuel : Err
  deriving DecidableEq, Repr

/-- The read `board[r][c]`; `none` is `undefined` (or a `TypeError` already at `board[r]`). -/
def Board.cell? (b : Board) (r c : Nat) : Option Cell :=
  match b[r]? with
  | none => none
  | some cells => cells[c]?

/-- The write `board[r][c].f = v`, as a function applied to the cell object in place. -/
def Board.update (b : Board) (r c : Nat) (f : Cell → Cell) : Board :=
  List.modify (List.modify f c) r b

/-- The write `newBoard[r][c].revealed = true`. -/
def setRevealed (x : Cell) : Cell := { x with revealed := true }

/-- The write `newBoard[row][col].flagged = false`. -/
def clearFlagged (x : Cell) : Cell := { x with flagged := false }

/-- The random oracle: `d i` is `Math.floor(Math.random() * (i + 1))`. -/
abbrev Draws := (i : Nat) → Fin (i + 1)

/-- The destructuring swap `[a[i], a[j]] = [a[j], a[i]]`: both reads, then both writes. -/
def swap {α : Type} (a : List α) (i j : Nat) : List α :=
  match a[i]?, a[j]? with
  | some x, some y => (a.set i y).set j x
  | _, _ => a

/-- The loop `for (let i = n; i > 0; i--)` of `shuffle`. -/
def shuffleLoop {α : Type} (d : Draws) : Nat → List α → List α
  | 0, a => a
  | i + 1, a => shuffleLoop d i (swap a (i + 1) (d (i + 1)).val)

/-- The function `shuffle(array)`. -/
def shuffle {α : Type} (d : Draws) (array : List α) : List α :=
  shuffleLoop d (array.length - 1) array

/-- The indices `i` of `for (let i = Math.max(0, r - 1); i <= Math.min(r + 1, SIZE - 1); i++)`,
in the order the loop visits them. -/
def window (r : Nat) : List Nat :=
  List.range' (r - 1) (min (r + 1) (SIZE - 1) + 1 - (r - 1))

/-- The two inner loops of `initializeBoard`: count the cells of the window around
`(row, col)` whose value is `'mine'`. -/
def countMines (b : Board) (row col : Nat) : Except Err Nat :=
  (window row).foldlM (fun mines i =>
    (window col).foldlM (fun mines j =>
      match b.cell? i j with
      | none => Except.error Err.typeError
      | some x => Except.ok (if x.value = Value.mine then mines + 1 else mines)) mines) 0

/-- The body of the two outer loops of `initializeBoard` at `(row, col)`. -/
def fillCell (b : Board) (row col : Nat) : Except (Err × Board) Board :=
  match b.cell? row col with
  | none => Except.error (Err.typeError, b)
  | some x =>
    if x.value ≠ Value.mine then
      match countMines b row col with
      | Except.error e => Except.error (e, b)
      | Except.ok mines => Except.ok (b.update row col (fun y => { y with value := Value.num mines }))
    else Except.ok b

/-- The two outer loops of `initializeBoard` (lines 36-52). -/
def fillCounts (b : Board) : Except (Err × Board) Board :=
  (List.range SIZE).foldlM (fun b row =>
    (List.range SIZE).foldlM (fun b col => fillCell b row col) b) b

/-- The cell literal of `initializeBoard` (lines 27-33). -/
def mkCell (bombIndices : List Nat) (row col : Nat) : Cell :=
  { row := row
    col := col
    value := if bombIndices.contains (row * SIZE + col) then Value.mine else Value.num 0
    revealed := false
    flagged := false }

/-- The board literal of `initializeBoard` (lines 24-34). -/
def freshBoard (bombIndices : List Nat) : Board :=
  (List.range SIZE).map (fun row => (List.range SIZE).map (fun col => mkCell bombIndices row col))

/-- The `bombIndices` of `initializeBoard` (lines 21-22). -/
def bombIndices (d : Draws) : List Nat :=
  (shuffle d (List.range (SIZE * SIZE))).take NUM_MINES

/-- The function `initializeBoard()`: the new state, or the error the call raises (the board it
was building is local, so the state is then as it was). -/
def initializeBoard (d : Draws) (s : State) : Except (Err × State) State :=
  match fillCounts (freshBoard (bombIndices d)) with
  | Except.error e => Except.error (e.1, s)
  | Except.ok newBoard =>
    Except.ok { s with
      board := newBoard
      gameOver := false
      startTime := none
      elapsedTime := 0
      flaggedCells := [] }

/-- The body of the inner loops of `revealAllCells` (lines 123-129): push the unrevealed
cells of the window around `(r, c)` onto the queue. -/
def pushUnrevealed (b : Board) (r c : Nat) (queue : List (Nat × Nat)) :
    Except Err (List (Nat × Nat)) :=
  (window r).foldlM (fun q i =>
    (window c).foldlM (fun q j =>
      match b.cell? i j with
      | none => Except.error Err.typeError
      | some x => Except.ok (if !x.revealed then q ++ [(i, j)] else q)) q) queue

/-- The `while (queue.length > 0)` loop of `revealAllCells`, with fuel. -/
def revealLoop : Nat → Board → List (Nat × Nat) → Except (Err × Board) Board
  | _, b, [] => Except.ok b
  | 0, b, _ :: _ => Except.error (Err.outOfFuel, b)
  | fuel + 1, b, (r, c) :: queue =>
    match b.cell? r c with
    | none => Except.error (Err.typeError, b)
    | some x =>
      if !x.revealed then
        if x.value = Value.num 0 then
          match pushUnrevealed (b.update r c setRevealed) r c queue with
          | Except.error e => Except.error (e, b.update r c setRevealed)
          | Except.ok queue2 => revealLoop fuel (b.update r c setRevealed) queue2
        else revealLoop fuel (b.update r c setRevealed) queue
      else revealLoop fuel b queue

/-- Fuel for `revealLoop`: every pass takes one entry off the queue, and entries are
pushed only when a cell is revealed, at most 8 for each of the `SIZE * SIZE` cells. -/
def revealFuel : Nat := 8 * (SIZE * SIZE) + 2

/-- The function `revealAllCells(row, col)` on the shared board. -/
def revealAllCells (b : Board) (row col : Nat) : Except (Err × Board) Board :=
  revealLoop revealFuel b [(row, col)]

/-- The loop body of `revealAllBombs` at `(row, col)`. -/
def revealBomb (b : Board) (row col : Nat) : Except (Err × Board) Board :=
  match b.cell? row col with
  | none => Except.error (Err.typeError, b)
  | some x => Except.ok (if x.value = Value.mine then b.update row col setRevealed else b)

/-- The function `revealAllBombs()` on the shared board. -/
def revealAllBombs (b : Board) : Except (Err × Board) Board :=
  (List.range SIZE).foldlM (fun b row =>
    (List.range SIZE).foldlM (fun b col => revealBomb b row col) b) b

/-- The read `board[row][col]` for arbitrary integers `row`, `col`. -/
def lookup (b : Board) (row col : Int) : Option Cell :=
  if 0 ≤ row ∧ 0 ≤ col then b.cell? row.toNat col.toNat else none

/-- The test `cell.row === row && cell.col === col` on an entry of `flaggedCells`. -/
def Pos.isAt (row col : Int) (p : Pos) : Bool := p.row == row && p.col == col

/-- The test `cell.row !== row || cell.col !== col` on an entry of `flaggedCells`. -/
def Pos.isNotAt (row col : Int) (p : Pos) : Bool := p.row != row || p.col != col

/-- The flag toggle shared by `handleCellClick` (lines 84-90) and
`handleContextMenuClick` (lines 169-175). -/
def toggleFlag (flaggedCells : List Pos) (row col : Int) : List Pos :=
  if flaggedCells.any (Pos.isAt row col) then
    flaggedCells.filter (Pos.isNotAt row col)
  else
    flaggedCells ++ [{ row := row, col := col }]

/-- The update `if (startTime === null) setStartTime(Date.now())`. -/
def startClock (startTime : Option Nat) (now : Nat) : Option Nat :=
  match startTime with
  | none => some now
  | some t => some t

/-- The handler `handleCellClick(row, col)`: the next state when the call returns, or the error it
raises together with the state as the call leaves it. -/
def handleCellClick (s : State) (now : Nat) (row col : Int) : Except (Err × State) State :=
  if s.gameOver then Except.ok s
  else
    match lookup s.board row col with
    | none => Except.error (Err.typeError, s)
    | some x =>
      if x.revealed then Except.ok s
      else if s.isFlagged then
        Except.ok { s with
          startTime := startClock s.startTime now
          flaggedCells := toggleFlag s.flaggedCells row col }
      else if x.flagged then
        Except.ok { s with
          startTime := startClock s.startTime now
          board := s.board.update row.toNat col.toNat clearFlagged
          flaggedCells := s.flaggedCells.filter (Pos.isNotAt row col) }
      else
        match x.value with
        | Value.mine =>
          match revealAllBombs (s.board.update row.toNat col.toNat setRevealed) with
          | Except.error e =>
            Except.error (e.1, { s with
              startTime := startClock s.startTime now
              board := e.2
              gameOver := true })
          | Except.ok b =>
            Except.ok { s with
              startTime := startClock s.startTime now
              board := b
              gameOver := true }
        | Value.num 0 =>
          match revealAllCells (s.board.update row.toNat col.toNat setRevealed)
              row.toNat col.toNat with
          | Except.error e =>
            Except.error (e.1, { s with
              startTime := startClock s.startTime now
              board := e.2 })
          | Except.ok b =>
            Except.ok { s with
              startTime := startClock s.startTime now
              board := b }
        | Value.num (_ + 1) =>
          Except.ok { s with
            startTime := startClock s.startTime now
            board := s.board.update row.toNat col.toNat setRevealed }

/-- The handler `handleFlagToggle()`. -/
def handleFlagToggle (s : State) : State :=
  { s with isFlagged := !s.isFlagged }

/-- The handler `handleCellRightClick(event, row, col)`. -/
def handleCellRightClick (s : State) (row col : Int) : State :=
  { s with selectedCell := some { row := row, col := col } }

/-- The handler `handleContextMenuClick()`. -/
def handleContextMenuClick (s : State) : State :=
  match s.selectedCell with
  | none => s
  | some p => { s with flaggedCells := toggleFlag s.flaggedCells p.row p.col }

/-- The timer callback of the second `useEffect`, run at time `now`. -/
def tick (s : State) (now : Nat) : State :=
  match s.startTime with
  | none => s
  | some t => if s.gameOver then s else { s with elapsedTime := (now - t) / 1000 }

/-! ## Auxiliary definitions for the statements and proofs -/

/-- Whether the cell at `(i, j)` exists and has value `'mine'`. -/
def isMineAt (b : Board) (i j : Nat) : Bool :=
  match b.cell? i j with
  | some x => decide (x.value = Value.mine)
  | none => false

/-- The coordinates the two window loops around `(r, c)` visit, in order. -/
def windowCells (r c : Nat) : List (Nat × Nat) :=
  (window r).flatMap (fun i => (window c).map (fun j => (i, j)))

/-- The number of mines in the window around `(r, c)`. -/
def windowMines (b : Board) (r c : Nat) : Nat :=
  (windowCells r c).countP (fun p => isMineAt b p.1 p.2)

/-- What the counting pass makes of the cell at `(i, j)` of the board `b0` it starts from. -/
def counted (b0 : Board) (i j : Nat) (x : Cell) : Cell :=
  if x.value ≠ Value.mine then { x with value := Value.num (windowMines b0 i j) } else x

/-- The coordinates of the grid, row by row. -/
def gridCells : List (Nat × Nat) :=
  (List.range SIZE).flatMap (fun i => (List.range SIZE).map (fun j => (i, j)))

/-- Whether `(i, j)` is one of the up-to-8 neighbours of `(r, c)`: another cell, at most one row
and at most one column away. -/
def isNeighbour (r c i j : Nat) : Bool :=
  decide ((i ≠ r ∨ j ≠ c) ∧ i ≤ r + 1 ∧ r ≤ i + 1 ∧ j ≤ c + 1 ∧ c ≤ j + 1)

/-- The number of `'mine'` cells among the neighbours of `(r, c)` that lie on the grid. -/
def adjacentMines (b : Board) (r c : Nat) : Nat :=
  (gridCells.filter (fun p => isNeighbour r c p.1 p.2 && isMineAt b p.1 p.2)).length

/-- The number of cells of the board whose value is `'mine'`. -/
def mineCount (b : Board) : Nat :=
  b.flatten.countP (fun x => decide (x.value = Value.mine))

/-- The board is `SIZE` rows of `SIZE` cells. -/
def Board.WF (b : Board) : Prop :=
  b.length = SIZE ∧ ∀ cells ∈ b, cells.length = SIZE

instance (b : Board) : Decidable b.WF :=
  inferInstanceAs (Decidable (b.length = SIZE ∧ ∀ cells ∈ b, cells.length = SIZE))

/-- The state was produced by `initializeBoard` (the mount effect, or the Reset button
pressed in whatever state came before). -/
def Initialized (s : State) : Prop :=
  ∃ (d : Draws) (s0 : State), initializeBoard d s0 = Except.ok s

/-- One handler call that returns takes `s` to `s1`. -/
def Step (s s1 : State) : Prop :=
  (∃ (now : Nat) (row col : Int), handleCellClick s now row col = Except.ok s1) ∨
  handleFlagToggle s = s1 ∨
  (∃ (row col : Int), handleCellRightClick s row col = s1) ∨
  handleContextMenuClick s = s1 ∨
  (∃ (now : Nat), tick s now = s1)

/-- The states of the component after its mount effect: `initializeBoard`, followed
by any sequence of handler calls. -/
inductive Reachable : State → Prop
  | init (s : State) : Initialized s → Reachable s
  | step (s s1 : State) : Reachable s → Step s s1 → Reachable s1

/-- What `revealAllBombs` makes of a cell. -/
def bombShown (x : Cell) : Cell :=
  if x.value = Value.mine then setRevealed x else x

/-- No cell object carries `flagged = true`. -/
def Board.Unflagged (b : Board) : Prop :=
  ∀ r c x, b.cell? r c = some x → x.flagged = false

/-! ## Concrete states used to evaluate the handlers -/

deriving instance DecidableEq for Except

/-- Every draw of `shuffle` is 0. -/
def zeroDraws : Draws := fun _ => 0

/-- The initial values of the `useState` variables. -/
def mountState : State :=
  { board := [], gameOver := false, isFlagged := false, selectedCell := none,
    startTime := none, elapsedTime := 0, flaggedCells := [] }

/-- The state after the mount effect when every draw is 0: the mines are the cells
`(0,1)`, ..., `(0,9)` and `(1,0)`. -/
def startState : State :=
  match initializeBoard zeroDraws mountState with
  | Except.ok s => s
  | Except.error e => e.2

/-- Click the listed cells one after the other, at time 0. -/
def clickAll (s : State) (cells : List (Nat × Nat)) : State :=
  cells.foldl (fun s p =>
    match handleCellClick s 0 p.1 p.2 with
    | Except.ok s1 => s1
    | Except.error e => e.2) s

/-- The cells of `startState` that are not mines, without `(9, 9)`. -/
def safeCells : List (Nat × Nat) :=
  gridCells.filter (fun p => !isMineAt startState.board p.1 p.2 && !(p.1 == 9 && p.2 == 9))

/-- The state after a reveal click on every safe cell of `startState` but `(9, 9)`. -/
def almostWon : State := clickAll startState safeCells

/-- The state after the reveal click on `(9, 9)` in `almostWon`. -/
def allSafeRevealed : State := clickAll almostWon [(9, 9)]

/-- The state after a reveal click on the mine `(0, 1)` in `allSafeRevealed`. -/
def lostAfterAll : State := clickAll allSafeRevealed [(0, 1)]

/-- The coordinates of the cells that are not mines and not revealed. -/
def hiddenSafe (b : Board) : List (Nat × Nat) :=
  gridCells.filter (fun p =>
    match b.cell? p.1 p.2 with
    | some x => decide (x.value ≠ Value.mine) && !x.revealed
    | none => false)

/-- The coordinates of the revealed cells. -/
def revealedCells (b : Board) : List (Nat × Nat) :=
  gridCells.filter (fun p =>
    match b.cell? p.1 p.2 with
    | some x => x.revealed
    | none => false)

/-- The state after the mine `(0, 1)` of `startState` is flagged in flag mode. -/
def mineFlagged : State := clickAll (handleFlagToggle startState) [(0, 1)]

/-- The state after flag mode is switched off in `mineFlagged` and `(0, 1)` is clicked. -/
def flaggedMineClicked : State := clickAll (handleFlagToggle mineFlagged) [(0, 1)]

/-! ## Definitions for the flood loop, the one-way reveal and the shuffle -/

/-- What a call leaves behind: the value it returns, or the board (the state) as it
stands when the call raises. -/
def after {ε σ : Type} : Except (ε × σ) σ → σ
  | Except.ok t => t
  | Except.error e => e.2

/-- Every cell that is revealed on `b` is a revealed cell on `t`. -/
def Board.RevealedLE (b t : Board) : Prop :=
  ∀ r c x, b.cell? r c = some x → x.revealed = true →
    ∃ y, t.cell? r c = some y ∧ y.revealed = true

/-- The state after the mine `(0, 1)` is flagged, flag mode is switched off and the other
mine `(0, 2)` is clicked. -/
def otherMineClicked : State := clickAll (handleFlagToggle mineFlagged) [(0, 2)]

/-- The state after a right click on the revealed cell `(9, 9)` of `allSafeRevealed`. -/
def revealedSelected : State := handleCellRightClick allSafeRevealed 9 9

/-- The state after a right click on the cell `(0, 2)` of the lost game `lostAfterAll`. -/
def lostSelected : State := handleCellRightClick lostAfterAll 0 2

/-- Whether the cell at `p` exists and is revealed. -/
def revealedAt (b : Board) (p : Nat × Nat) : Bool :=
  match b.cell? p.1 p.2 with
  | some x => x.revealed
  | none => false

/-- Whether the cell at `p` exists and is not revealed. -/
def hiddenAt (b : Board) (p : Nat × Nat) : Bool :=
  match b.cell? p.1 p.2 with
  | some x => !x.revealed
  | none => false

/-- Whether the cell at `p` exists and has value 0. -/
def isZeroAt (b : Board) (p : Nat × Nat) : Bool :=
  match b.cell? p.1 p.2 with
  | some x => decide (x.value = Value.num 0)
  | none => false

/-- The cells the inner loops of `revealAllCells` (lines 123-129) push: the cells of the
window around `(r, c)` that are not revealed on `b`, in the order of the loops. -/
def pending (b : Board) (r c : Nat) : List (Nat × Nat) :=
  (windowCells r c).filter (hiddenAt b)

/-- Adding pushed cells to the worklist, whose head is the next cell to be taken off:
at the far end for a queue (`push` and `shift`, as in the source), on top for a stack
(`push` and `pop`). -/
def merge (stack : Bool) (queue pushed : List (Nat × Nat)) : List (Nat × Nat) :=
  if stack then pushed.reverse ++ queue else queue ++ pushed

/-- The worklist loop of `revealAllCells` for either discipline of the worklist, with a
record `marks` of the cells on which it writes `revealed = true` (line 120), in the order
of the writes.  `none`: the fuel is used up or a cell read is `undefined`. -/
def sweep (stack : Bool) :
    Nat → Board → List (Nat × Nat) → List (Nat × Nat) → Option (Board × List (Nat × Nat))
  | _, b, [], marks => some (b, marks)
  | 0, _, _ :: _, _ => none
  | fuel + 1, b, (r, c) :: queue, marks =>
    match b.cell? r c with
    | none => none
    | some x =>
      if !x.revealed then
        if x.value = Value.num 0 then
          sweep stack fuel (b.update r c setRevealed)
            (merge stack queue (pending (b.update r c setRevealed) r c)) (marks ++ [(r, c)])
        else sweep stack fuel (b.update r c setRevealed) queue (marks ++ [(r, c)])
      else sweep stack fuel b queue marks

/-- The flood region of `start` on the board `b`: the least set that contains `start` and,
for each of its cells whose value is 0, every neighbour on the grid that is not revealed
on `b`. -/
inductive Flood (b : Board) (start : Nat × Nat) : Nat × Nat → Prop
  | start : Flood b start start
  | spread (p q : Nat × Nat) : Flood b start p → isZeroAt b p = true →
      isNeighbour p.1 p.2 q.1 q.2 = true → hiddenAt b q = true → Flood b start q
/-- The invariant of the worklist loop started at `start` on the board `b0`: `b` is the
current board, `q` the worklist and `marks` the cells marked so far. -/
structure FloodInv (b0 : Board) (start : Nat × Nat) (b : Board)
    (q marks : List (Nat × Nat)) : Prop where
  wf : b.WF
  frame : ∀ i j, b.cell? i j =
    (b0.cell? i j).map (fun x => if (i, j) ∈ marks then setRevealed x else x)
  marks_nodup : marks.Nodup
  marks_flood : ∀ p ∈ marks, Flood b0 start p
  queue_flood : ∀ p ∈ q, Flood b0 start p
  start_seen : start ∈ marks ∨ start ∈ q
  closed : ∀ p ∈ marks, isZeroAt b0 p = true → ∀ p2 : Nat × Nat,
    isNeighbour p.1 p.2 p2.1 p2.2 = true → hiddenAt b0 p2 = true → p2 ∈ marks ∨ p2 ∈ q

/-- The draws of one run of `shuffle` on `n + 1` entries: for each step `i = 1, ..., n` of
the loop (entry `i - 1` of the sequence) an integer `j` in `0..i`. -/
abbrev DrawSeq (n : Nat) := (i : Fin n) → Fin (i.val + 2)

/-- The oracle that answers step `i` of the loop, `1 ≤ i ≤ n`, with the draw of the
sequence for that step (no other step is ever asked). -/
def DrawSeq.toDraws {n : Nat} (f : DrawSeq n) : Draws := fun i =>
  if h : 0 < i ∧ i ≤ n then
    ⟨(f ⟨i - 1, by omega⟩).val, by
      have h2 := (f ⟨i - 1, by omega⟩).isLt
      simp only at h2
      omega⟩
  else 0

/-- The output of `shuffle` on the cell indices `0, ..., SIZE * SIZE - 1`, as a function
of the draws. -/
def shuffled (f : DrawSeq (SIZE * SIZE - 1)) : List Nat :=
  shuffle f.toDraws (List.range (SIZE * SIZE))
/-- The number of draw sequences for which the mine set of `initializeBoard` (the first
`NUM_MINES` entries of the shuffled indices) is the set `S` of cell indices. -/
def mineSetCount (S : Finset (Fin (SIZE * SIZE))) : Nat :=
  (Finset.univ.filter (fun f : DrawSeq (SIZE * SIZE - 1) =>
    (bombIndices f.toDraws).toFinset = S.image Fin.val)).card
/-- The permutations of the cell indices whose first `NUM_MINES` entries make up the
set `S`. -/
def permsWithMines (S : Finset (Fin (SIZE * SIZE))) : Finset (List Nat) :=
  (List.range (SIZE * SIZE)).permutations.toFinset.filter
    (fun l => (l.take NUM_MINES).toFinset = S.image Fin.val)

/-- Whether the cell `(r, c)` is listed in `flaggedCells` (the test `isFlaggedCell` of the
render, lines 214-216). -/
def State.listed (s : State) (r c : Nat) : Bool :=
  s.flaggedCells.any (Pos.isAt r c)

/-- No cell is both revealed and flagged, where flagged means listed in `flaggedCells` or
carrying `flagged = true`. -/
def NoRevealedFlag (s : State) : Prop :=
  ∀ r c x, s.board.cell? r c = some x → x.revealed = true →
    s.listed r c = false ∧ x.flagged = false

/-- The state after a reveal click on the cell `(0, 0)` of `startState` (value 2) and a
switch to flag mode: game in progress, flag mode on, `(0, 0)` revealed. -/
def oneShownFlagMode : State := handleFlagToggle (clickAll startState [(0, 0)])

/-- The state after the unrevealed cell `(5, 5)` of `startState` is flagged in flag mode,
flag mode is switched off and `(5, 5)` is clicked. -/
def flaggedSafeClicked : State :=
  clickAll (handleFlagToggle (clickAll (handleFlagToggle startState) [(5, 5)])) [(5, 5)]

/-! ## Reading and writing cells -/

theorem cell?_update (b : Board) (r c : Nat) (f : Cell → Cell) (i j : Nat) :
    (b.update r c f).cell? i j =
      if i = r ∧ j = c then (b.cell? r c).map f else b.cell? i j := by
  unfold Board.cell? Board.update
  rw [List.getElem?_modify]
  by_cases hi : i = r
  · subst hi
    cases hb : b[i]? with
    | none => simp
    | some cells =>
      simp only [Option.map_eq_map, Option.map_some', if_true, true_and]
      rw [List.getElem?_modify]
      by_cases hj : j = c
      · subst hj; simp
      · have : ¬ c = j := fun h => hj h.symm
        simp [hj, this]
  · have : ¬ r = i := fun h => hi h.symm
    cases hb : b[i]? <;> simp [hi, this]

theorem cell?_update_self (b : Board) (r c : Nat) (f : Cell → Cell) :
    (b.update r c f).cell? r c = (b.cell? r c).map f := by
  rw [cell?_update]; simp

theorem cell?_update_ne (b : Board) (r c : Nat) (f : Cell → Cell) (i j : Nat)
    (h : ¬ (i = r ∧ j = c)) : (b.update r c f).cell? i j = b.cell? i j := by
  rw [cell?_update, if_neg h]

theorem WF_update {b : Board} (h : b.WF) (r c : Nat) (f : Cell → Cell) :
    (b.update r c f).WF := by
  obtain ⟨h1, h2⟩ := h
  refine ⟨by simp [Board.update, List.length_modify, h1], ?_⟩
  intro cells hc
  obtain ⟨n, hn⟩ := List.mem_iff_getElem?.1 hc
  unfold Board.update at hn
  rw [List.getElem?_modify] at hn
  cases hb : b[n]? with
  | none => simp [hb] at hn
  | some cells0 =>
    have hmem : cells0 ∈ b := List.mem_iff_getElem?.2 ⟨n, hb⟩
    simp only [hb, Option.map_eq_map, Option.map_some', Option.some.injEq] at hn
    subst hn
    split
    · simp [List.length_modify, h2 _ hmem]
    · exact h2 _ hmem

theorem cell?_isSome_iff {b : Board} (h : b.WF) (r c : Nat) :
    (b.cell? r c).isSome = true ↔ r < SIZE ∧ c < SIZE := by
  obtain ⟨h1, h2⟩ := h
  unfold Board.cell?
  cases hb : b[r]? with
  | none =>
    have := List.getElem?_eq_none_iff.1 hb
    simp; omega
  | some cells =>
    have hmem : cells ∈ b := List.mem_iff_getElem?.2 ⟨r, hb⟩
    have hr : r < b.length := (List.getElem?_eq_some.1 hb).1
    have hl := h2 _ hmem
    simp only
    constructor
    · intro hs
      obtain ⟨x, hx⟩ := Option.isSome_iff_exists.1 hs
      have := (List.getElem?_eq_some.1 hx).1
      omega
    · intro ⟨_, hc⟩
      rw [List.getElem?_eq_getElem (by omega)]; rfl

theorem cell?_some_of_lt {b : Board} (h : b.WF) {r c : Nat} (hr : r < SIZE) (hc : c < SIZE) :
    ∃ x, b.cell? r c = some x :=
  Option.isSome_iff_exists.1 ((cell?_isSome_iff h r c).2 ⟨hr, hc⟩)

theorem lt_of_cell?_some {b : Board} (h : b.WF) {r c : Nat} {x : Cell}
    (hx : b.cell? r c = some x) : r < SIZE ∧ c < SIZE :=
  (cell?_isSome_iff h r c).1 (by rw [hx]; rfl)

theorem cell?_none_of_ge {b : Board} (h : b.WF) {r c : Nat} (hrc : SIZE ≤ r ∨ SIZE ≤ c) :
    b.cell? r c = none := by
  cases hx : b.cell? r c with
  | none => rfl
  | some x =>
    have := lt_of_cell?_some h hx
    omega

/-- A cell of the board, as an element of a row, sits at some coordinates. -/
theorem cell?_of_mem {b : Board} {cells : List Cell} {x : Cell}
    (hc : cells ∈ b) (hx : x ∈ cells) : ∃ r c, b.cell? r c = some x := by
  obtain ⟨r, hr⟩ := List.mem_iff_getElem?.1 hc
  obtain ⟨c, hc2⟩ := List.mem_iff_getElem?.1 hx
  exact ⟨r, c, by simp [Board.cell?, hr, hc2]⟩

theorem mem_of_cell? {b : Board} {r c : Nat} {x : Cell} (h : b.cell? r c = some x) :
    ∃ cells ∈ b, x ∈ cells := by
  unfold Board.cell? at h
  cases hb : b[r]? with
  | none => simp [hb] at h
  | some cells =>
    simp only [hb] at h
    exact ⟨cells, List.mem_iff_getElem?.2 ⟨r, hb⟩, List.mem_iff_getElem?.2 ⟨c, h⟩⟩

/-! ## Loop rules -/

/-- Invariant rule for `for (let k = 0; k < n; k++)`. -/
theorem foldlM_range_inv {ε σ : Type} (f : σ → Nat → Except ε σ) (P : Nat → σ → Prop)
    (n : Nat) (s : σ) (h0 : P 0 s)
    (hstep : ∀ k t, k < n → P k t → ∃ t', f t k = Except.ok t' ∧ P (k + 1) t') :
    ∃ t, (List.range n).foldlM f s = Except.ok t ∧ P n t := by
  induction n with
  | zero => exact ⟨s, rfl, h0⟩
  | succ n ih =>
    obtain ⟨t, ht, hP⟩ := ih (fun k t hk => hstep k t (Nat.lt_succ_of_lt hk))
    obtain ⟨t', ht', hP'⟩ := hstep n t (Nat.lt_succ_self n) hP
    refine ⟨t', ?_, hP'⟩
    rw [List.range_succ, List.foldlM_append, ht]
    simp [ht', bind, Except.bind, pure, Except.pure]

/-- Invariant rule for the row-major double loop over the grid. -/
theorem grid_loop_inv {ε σ : Type} (f : σ → Nat → Nat → Except ε σ)
    (P : Nat → Nat → σ → Prop) (s : σ) (h0 : P 0 0 s)
    (hstep : ∀ r c t, r < SIZE → c < SIZE → P r c t →
      ∃ t', f t r c = Except.ok t' ∧ P r (c + 1) t')
    (hrow : ∀ r t, r < SIZE → P r SIZE t → P (r + 1) 0 t) :
    ∃ t, (List.range SIZE).foldlM (fun b row =>
      (List.range SIZE).foldlM (fun b col => f b row col) b) s = Except.ok t ∧ P SIZE 0 t := by
  apply foldlM_range_inv _ (fun r t => P r 0 t) SIZE s h0
  intro r t hr hP
  obtain ⟨t', ht', hP'⟩ := foldlM_range_inv (fun b col => f b r col) (fun c t => P r c t)
    SIZE t hP (fun c t hc hPc => hstep r c t hr hc hPc)
  exact ⟨t', ht', hrow r t' hr hP'⟩

/-! ## The counting pass of `initializeBoard` -/

theorem lt_of_mem_window {r i : Nat} (h : i ∈ window r) : i < SIZE := by
  unfold window at h
  obtain ⟨k, hk, rfl⟩ := List.mem_range'.1 h
  unfold SIZE at *
  omega

theorem count_row (b : Board) (i : Nat) (l : List Nat) (acc : Nat)
    (h : ∀ j ∈ l, ∃ x, b.cell? i j = some x) :
    l.foldlM (fun mines j =>
      match b.cell? i j with
      | none => (Except.error Err.typeError : Except Err Nat)
      | some x => Except.ok (if x.value = Value.mine then mines + 1 else mines)) acc
      = Except.ok (acc + l.countP (fun j => isMineAt b i j)) := by
  induction l generalizing acc with
  | nil => simp [pure, Except.pure]
  | cons j l ih =>
    obtain ⟨x, hx⟩ := h j (List.mem_cons_self _ _)
    rw [List.foldlM_cons, hx]
    simp only [bind, Except.bind]
    rw [ih _ (fun k hk => h k (List.mem_cons_of_mem _ hk))]
    by_cases hm : x.value = Value.mine
    · simp [isMineAt, hx, hm, List.countP_cons]; omega
    · simp [isMineAt, hx, hm, List.countP_cons]

theorem count_rows (b : Board) (li lj : List Nat) (acc : Nat)
    (h : ∀ i ∈ li, ∀ j ∈ lj, ∃ x, b.cell? i j = some x) :
    li.foldlM (fun mines i =>
      lj.foldlM (fun mines j =>
        match b.cell? i j with
        | none => (Except.error Err.typeError : Except Err Nat)
        | some x => Except.ok (if x.value = Value.mine then mines + 1 else mines)) mines) acc
      = Except.ok (acc + (li.flatMap (fun i => lj.map (fun j => (i, j)))).countP
          (fun p => isMineAt b p.1 p.2)) := by
  induction li generalizing acc with
  | nil => simp [pure, Except.pure]
  | cons i li ih =>
    rw [List.foldlM_cons, count_row b i lj acc (h i (List.mem_cons_self _ _))]
    simp only [bind, Except.bind]
    rw [ih _ (fun k hk => h k (List.mem_cons_of_mem _ hk))]
    simp [List.countP_append, List.countP_map, Function.comp_def, Nat.add_assoc]

theorem countMines_eq {b : Board} (h : b.WF) (r c : Nat) :
    countMines b r c = Except.ok (windowMines b r c) := by
  unfold countMines windowMines windowCells
  rw [count_rows b (window r) (window c) 0
    (fun i hi j hj => cell?_some_of_lt h (lt_of_mem_window hi) (lt_of_mem_window hj))]
  simp

theorem windowMines_congr {b b2 : Board} (h : ∀ i j, isMineAt b2 i j = isMineAt b i j)
    (r c : Nat) : windowMines b2 r c = windowMines b r c := by
  unfold windowMines
  simp [h]

theorem counted_mine_iff (b0 : Board) (i j : Nat) (x : Cell) :
    (counted b0 i j x).value = Value.mine ↔ x.value = Value.mine := by
  unfold counted
  by_cases h : x.value = Value.mine <;> simp [h]

theorem fillCounts_spec {b0 : Board} (h0 : b0.WF) :
    ∃ t, fillCounts b0 = Except.ok t ∧ t.WF ∧
      ∀ i j, t.cell? i j = (b0.cell? i j).map (counted b0 i j) := by
  have key := grid_loop_inv fillCell
    (fun r c t => t.WF ∧ ∀ i j, t.cell? i j =
      (b0.cell? i j).map (fun x => if i < r ∨ (i = r ∧ j < c) then counted b0 i j x else x))
    b0 ⟨h0, fun i j => by cases b0.cell? i j <;> simp⟩ ?_ ?_
  · obtain ⟨t, ht, hwf, hP⟩ := key
    refine ⟨t, ht, hwf, fun i j => ?_⟩
    rw [hP]
    cases hx : b0.cell? i j with
    | none => rfl
    | some x =>
      have := (lt_of_cell?_some h0 hx).1
      simp [this]
  · intro r c t hr hc ⟨hwf, hP⟩
    obtain ⟨x0, hx0⟩ := cell?_some_of_lt h0 hr hc
    have htx : t.cell? r c = some x0 := by rw [hP, hx0]; simp
    have hmine : ∀ i j, isMineAt t i j = isMineAt b0 i j := by
      intro i j
      unfold isMineAt
      rw [hP]
      cases b0.cell? i j with
      | none => rfl
      | some x =>
        simp only [Option.map_some']
        split
        · simp [counted_mine_iff]
        · rfl
    unfold fillCell
    rw [htx]
    by_cases hm : x0.value = Value.mine
    · refine ⟨t, by simp [hm], hwf, fun i j => ?_⟩
      rw [hP]
      cases hx : b0.cell? i j with
      | none => rfl
      | some x =>
        simp only [Option.map_some', Option.some.injEq]
        by_cases hij : i = r ∧ j = c
        · obtain ⟨rfl, rfl⟩ := hij
          rw [hx0] at hx
          cases hx
          simp [counted, hm]
        · have e : (i < r ∨ i = r ∧ j < c + 1) ↔ (i < r ∨ i = r ∧ j < c) := by omega
          simp only [e]
    · simp only [ne_eq, hm, not_false_eq_true, if_true, countMines_eq hwf]
      refine ⟨_, rfl, WF_update hwf _ _ _, fun i j => ?_⟩
      rw [cell?_update]
      by_cases hij : i = r ∧ j = c
      · obtain ⟨rfl, rfl⟩ := hij
        simp [htx, hx0, counted, hm, windowMines_congr hmine]
      · rw [if_neg hij, hP]
        cases hx : b0.cell? i j with
        | none => rfl
        | some x =>
          have e : (i < r ∨ i = r ∧ j < c + 1) ↔ (i < r ∨ i = r ∧ j < c) := by omega
          simp only [Option.map_some', e]
  · intro r t hr ⟨hwf, hP⟩
    refine ⟨hwf, fun i j => ?_⟩
    rw [hP]
    cases hx : b0.cell? i j with
    | none => rfl
    | some x =>
      have := (lt_of_cell?_some h0 hx).2
      have e : (i < r ∨ i = r ∧ j < SIZE) ↔ (i < r + 1 ∨ i = r + 1 ∧ j < 0) := by omega
      simp only [Option.map_some', e]

/-! ## `shuffle` permutes its argument -/

theorem swap_perm {α : Type} (a : List α) (i j : Nat) : (swap a i j).Perm a := by
  classical
  unfold swap
  split
  · rename_i x y hx hy
    obtain ⟨hi, hxi⟩ := List.getElem?_eq_some.1 hx
    obtain ⟨hj, hyj⟩ := List.getElem?_eq_some.1 hy
    rw [List.perm_iff_count]
    intro c
    have hj2 : j < (a.set i y).length := by simpa using hj
    rw [List.count_set _ _ _ _ hj2, List.count_set _ _ _ _ hi]
    have e1 : (a.set i y)[j] = y := by
      rw [List.getElem_set]
      split
      · rfl
      · exact hyj
    rw [e1, hxi]
    have hpos : (x == c) = true → 0 < List.count c a := by
      intro h
      have : x = c := by simpa using h
      subst this
      exact List.count_pos_iff.2 (hxi ▸ List.getElem_mem _)
    by_cases h1 : (x == c) = true <;> by_cases h2 : (y == c) = true <;> simp [h1, h2]
    · have := hpos h1; omega
    · have := hpos h1; omega
  · exact List.Perm.refl _

theorem shuffleLoop_perm {α : Type} (d : Draws) (n : Nat) (a : List α) :
    (shuffleLoop d n a).Perm a := by
  induction n generalizing a with
  | zero => exact List.Perm.refl _
  | succ n ih => exact (ih _).trans (swap_perm _ _ _)

theorem shuffle_perm {α : Type} (d : Draws) (a : List α) : (shuffle d a).Perm a :=
  shuffleLoop_perm d _ a

theorem bombIndices_nodup (d : Draws) : (bombIndices d).Nodup :=
  List.Nodup.sublist (List.take_sublist _ _)
    ((shuffle_perm d _).nodup_iff.2 (List.nodup_range _))

theorem bombIndices_length (d : Draws) : (bombIndices d).length = NUM_MINES := by
  unfold bombIndices
  rw [List.length_take, (shuffle_perm d _).length_eq, List.length_range]
  decide

theorem bombIndices_lt (d : Draws) {k : Nat} (h : k ∈ bombIndices d) : k < SIZE * SIZE := by
  have := (shuffle_perm d _).subset (List.mem_of_mem_take h)
  exact List.mem_range.1 this

theorem freshBoard_WF (bs : List Nat) : (freshBoard bs).WF := by
  unfold freshBoard Board.WF
  refine ⟨by simp, ?_⟩
  intro cells hc
  obtain ⟨r, _, rfl⟩ := List.mem_map.1 hc
  simp

theorem freshBoard_cell? (bs : List Nat) {r c : Nat} (hr : r < SIZE) (hc : c < SIZE) :
    (freshBoard bs).cell? r c = some (mkCell bs r c) := by
  unfold freshBoard Board.cell?
  simp [List.getElem?_map, List.getElem?_range hr, List.getElem?_range hc]

/-- The cells of a well-formed board, listed along `gridCells`. -/
theorem flatten_eq_grid {b : Board} (h : b.WF) :
    b.flatten.map some = gridCells.map (fun p => b.cell? p.1 p.2) := by
  obtain ⟨h1, h2⟩ := h
  have hb : b = (List.range SIZE).map (fun r => (b[r]?).getD []) := by
    apply List.ext_getElem?
    intro r
    rw [List.getElem?_map]
    by_cases hr : r < SIZE
    · rw [List.getElem?_range hr, List.getElem?_eq_getElem (by omega)]
      simp [List.getElem?_eq_getElem (show r < b.length by omega)]
    · rw [List.getElem?_eq_none (by omega), List.getElem?_eq_none (by simpa using hr)]
      rfl
  have hrow : ∀ r, r < SIZE →
      ((b[r]?).getD []).map some = (List.range SIZE).map (fun c => b.cell? r c) := by
    intro r hr
    have hlen : r < b.length := by omega
    have hmem : b[r] ∈ b := List.getElem_mem _
    have hl := h2 _ hmem
    apply List.ext_getElem?
    intro c
    simp only [List.getElem?_map, Board.cell?, List.getElem?_eq_getElem hlen, Option.getD_some]
    by_cases hc : c < SIZE
    · rw [List.getElem?_range hc, List.getElem?_eq_getElem (by omega)]
      simp
    · rw [List.getElem?_eq_none (by omega), List.getElem?_eq_none (by simpa using hc)]
      rfl
  conv_lhs => rw [hb]
  unfold gridCells
  rw [List.map_flatten, List.map_map, List.map_flatMap, List.flatMap_def]
  congr 1
  apply List.map_congr_left
  intro r hr
  simp only [Function.comp_apply, List.map_map]
  rw [hrow r (List.mem_range.1 hr)]
  rfl

theorem mineCount_eq_grid {b : Board} (h : b.WF) :
    mineCount b = gridCells.countP (fun p => isMineAt b p.1 p.2) := by
  unfold mineCount
  have e : b.flatten.countP (fun x => decide (x.value = Value.mine)) =
      (b.flatten.map some).countP (fun o => match o with
        | some x => decide (x.value = Value.mine)
        | none => false) := by
    rw [List.countP_map]; rfl
  rw [e, flatten_eq_grid h, List.countP_map]
  rfl

theorem freshBoard_isMineAt (bs : List Nat) {r c : Nat} (hr : r < SIZE) (hc : c < SIZE) :
    isMineAt (freshBoard bs) r c = bs.contains (r * SIZE + c) := by
  unfold isMineAt
  rw [freshBoard_cell? bs hr hc]
  unfold mkCell
  cases bs.contains (r * SIZE + c) <;> simp

theorem mem_gridCells {p : Nat × Nat} : p ∈ gridCells ↔ p.1 < SIZE ∧ p.2 < SIZE := by
  unfold gridCells
  simp only [List.mem_flatMap, List.mem_map, List.mem_range]
  constructor
  · rintro ⟨i, hi, j, hj, rfl⟩
    exact ⟨hi, hj⟩
  · rintro ⟨h1, h2⟩
    exact ⟨p.1, h1, p.2, h2, rfl⟩

theorem gridCells_index : gridCells.map (fun p => p.1 * SIZE + p.2) = List.range (SIZE * SIZE) := by
  decide

theorem countP_mem_range (bs : List Nat) (n : Nat) (hn : bs.Nodup) (hlt : ∀ k ∈ bs, k < n) :
    (List.range n).countP (fun k => bs.contains k) = bs.length := by
  rw [List.countP_eq_length_filter]
  apply List.Perm.length_eq
  rw [List.perm_ext_iff_of_nodup (List.Nodup.filter _ (List.nodup_range n)) hn]
  intro k
  simp only [List.mem_filter, List.mem_range, List.contains_eq_any_beq, List.any_eq_true,
    beq_iff_eq]
  constructor
  · rintro ⟨_, x, hx, rfl⟩
    exact hx
  · intro hk
    exact ⟨hlt k hk, k, hk, rfl⟩

theorem freshBoard_mineCount (bs : List Nat) (hn : bs.Nodup) (hlt : ∀ k ∈ bs, k < SIZE * SIZE) :
    gridCells.countP (fun p => isMineAt (freshBoard bs) p.1 p.2) = bs.length := by
  rw [← countP_mem_range bs (SIZE * SIZE) hn hlt, ← gridCells_index, List.countP_map]
  apply List.countP_congr
  intro p hp
  obtain ⟨h1, h2⟩ := mem_gridCells.1 hp
  simp [freshBoard_isMineAt bs h1 h2]

theorem isMineAt_of_counted {t b0 : Board}
    (h : ∀ i j, t.cell? i j = (b0.cell? i j).map (counted b0 i j)) (i j : Nat) :
    isMineAt t i j = isMineAt b0 i j := by
  unfold isMineAt
  rw [h]
  cases b0.cell? i j with
  | none => rfl
  | some x => simp [counted_mine_iff]

theorem initializeBoard_spec (d : Draws) (s : State) :
    ∃ t, t.WF ∧
      (∀ i j, t.cell? i j =
        ((freshBoard (bombIndices d)).cell? i j).map (counted (freshBoard (bombIndices d)) i j)) ∧
      initializeBoard d s = Except.ok { s with
        board := t, gameOver := false, startTime := none, elapsedTime := 0, flaggedCells := [] } := by
  obtain ⟨t, ht, hwf, hc⟩ := fillCounts_spec (freshBoard_WF (bombIndices d))
  refine ⟨t, hwf, hc, ?_⟩
  unfold initializeBoard
  rw [ht]

theorem window_split : ∀ r, r < SIZE → ∀ c, c < SIZE →
    (windowCells r c).filter (fun p => !(p.1 == r && p.2 == c)) =
      gridCells.filter (fun p => isNeighbour r c p.1 p.2) := by
  decide!

theorem window_self : ∀ r, r < SIZE → ∀ c, c < SIZE →
    (windowCells r c).filter (fun p => (p.1 == r && p.2 == c)) = [(r, c)] := by
  decide!

theorem windowMines_eq_adjacent (b : Board) {r c : Nat} (hr : r < SIZE) (hc : c < SIZE)
    (hm : isMineAt b r c = false) : windowMines b r c = adjacentMines b r c := by
  unfold windowMines adjacentMines
  rw [List.countP_eq_countP_filter_add (windowCells r c) _ (fun p => (p.1 == r && p.2 == c)),
    window_self r hr c hc, window_split r hr c hc, ← List.countP_eq_length_filter,
    List.countP_filter]
  simp [hm, Bool.and_comm]

/-! ## Board generation: claims C1, C2, C10 -/

/-- C1: for every sequence of random draws used by `shuffle`, `initializeBoard` returns
a board that has exactly `NUM_MINES` (10) cells of value `'mine'` among its
`SIZE * SIZE` (100) cells. -/
theorem initializeBoard_mineCount (d : Draws) (s : State) :
    ∃ s1, initializeBoard d s = Except.ok s1 ∧
      mineCount s1.board = NUM_MINES ∧ s1.board.flatten.length = SIZE * SIZE := by
  obtain ⟨t, hwf, hc, hs⟩ := initializeBoard_spec d s
  refine ⟨_, hs, ?_, ?_⟩
  · show mineCount t = NUM_MINES
    rw [mineCount_eq_grid hwf, ← bombIndices_length d,
      ← freshBoard_mineCount (bombIndices d) (bombIndices_nodup d) (fun k hk => bombIndices_lt d hk)]
    apply List.countP_congr
    intro p _
    rw [isMineAt_of_counted hc]
  · show t.flatten.length = SIZE * SIZE
    have := congrArg List.length (flatten_eq_grid hwf)
    simp only [List.length_map] at this
    rw [this]
    decide

/-- C2: on the board `initializeBoard` returns, the value of every cell `(r, c)` that is
not a mine is the number of `'mine'` cells among its up-to-8 neighbours on the grid. -/
theorem initializeBoard_adjacent (d : Draws) (s : State) :
    ∃ s1, initializeBoard d s = Except.ok s1 ∧
      ∀ r c x, s1.board.cell? r c = some x → x.value ≠ Value.mine →
        x.value = Value.num (adjacentMines s1.board r c) := by
  obtain ⟨t, hwf, hc, hs⟩ := initializeBoard_spec d s
  refine ⟨_, hs, ?_⟩
  intro r c x hx hm
  change t.cell? r c = some x at hx
  show x.value = Value.num (adjacentMines t r c)
  obtain ⟨hr, hcl⟩ := lt_of_cell?_some hwf hx
  have hnm : isMineAt t r c = false := by simp [isMineAt, hx, hm]
  rw [← windowMines_eq_adjacent t hr hcl hnm, windowMines_congr (isMineAt_of_counted hc)]
  rw [hc, freshBoard_cell? _ hr hcl] at hx
  simp only [Option.map_some', Option.some.injEq] at hx
  subst hx
  have h0 : (mkCell (bombIndices d) r c).value ≠ Value.mine :=
    fun h => hm ((counted_mine_iff _ _ _ _).2 h)
  simp [counted, h0]

/-- C10: from every prior state, `initializeBoard` (the Reset button) returns a state in
which every cell has `revealed = false` and `flagged = false`, `flaggedCells` is empty,
`gameOver` is false, `startTime` is null and `elapsedTime` is 0. -/
theorem initializeBoard_reset (d : Draws) (s : State) :
    ∃ s1, initializeBoard d s = Except.ok s1 ∧
      (∀ cells ∈ s1.board, ∀ x ∈ cells, x.revealed = false ∧ x.flagged = false) ∧
      s1.flaggedCells = [] ∧ s1.gameOver = false ∧ s1.startTime = none ∧
      s1.elapsedTime = 0 := by
  obtain ⟨t, hwf, hc, hs⟩ := initializeBoard_spec d s
  refine ⟨_, hs, ?_, rfl, rfl, rfl, rfl⟩
  intro cells hcells x hx
  obtain ⟨r, c, hrc⟩ := cell?_of_mem hcells hx
  change t.cell? r c = some x at hrc
  obtain ⟨hr, hcl⟩ := lt_of_cell?_some hwf hrc
  rw [hc, freshBoard_cell? _ hr hcl] at hrc
  simp only [Option.map_some', Option.some.injEq] at hrc
  subst hrc
  unfold counted mkCell
  split <;> exact ⟨rfl, rfl⟩

/-! ## The reveal loops -/

theorem revealAllBombs_spec {b : Board} (h : b.WF) :
    ∃ t, revealAllBombs b = Except.ok t ∧ t.WF ∧
      ∀ i j, t.cell? i j = (b.cell? i j).map bombShown := by
  have key := grid_loop_inv revealBomb
    (fun r c t => t.WF ∧ ∀ i j, t.cell? i j =
      (b.cell? i j).map (fun x => if i < r ∨ (i = r ∧ j < c) then bombShown x else x))
    b ⟨h, fun i j => by cases b.cell? i j <;> simp⟩ ?_ ?_
  · obtain ⟨t, ht, hwf, hP⟩ := key
    refine ⟨t, ht, hwf, fun i j => ?_⟩
    rw [hP]
    cases hx : b.cell? i j with
    | none => rfl
    | some x =>
      have := (lt_of_cell?_some h hx).1
      simp [this]
  · intro r c t hr hc ⟨hwf, hP⟩
    obtain ⟨x0, hx0⟩ := cell?_some_of_lt h hr hc
    have htx : t.cell? r c = some x0 := by rw [hP, hx0]; simp
    unfold revealBomb
    rw [htx]
    refine ⟨_, rfl, ?_, fun i j => ?_⟩
    · split
      · exact WF_update hwf _ _ _
      · exact hwf
    · by_cases hij : i = r ∧ j = c
      · obtain ⟨rfl, rfl⟩ := hij
        by_cases hm : x0.value = Value.mine
        · simp [hm, cell?_update_self, htx, hx0, bombShown]
        · simp [hm, htx, hx0, bombShown]
      · have e : (i < r ∨ i = r ∧ j < c + 1) ↔ (i < r ∨ i = r ∧ j < c) := by omega
        have e2 : (if x0.value = Value.mine then t.update r c setRevealed else t).cell? i j
            = t.cell? i j := by
          split
          · exact cell?_update_ne _ _ _ _ _ _ hij
          · rfl
        rw [e2, hP]
        simp only [e]
  · intro r t hr ⟨hwf, hP⟩
    refine ⟨hwf, fun i j => ?_⟩
    rw [hP]
    cases hx : b.cell? i j with
    | none => rfl
    | some x =>
      have := (lt_of_cell?_some h hx).2
      have e : (i < r ∨ i = r ∧ j < SIZE) ↔ (i < r + 1 ∨ i = r + 1 ∧ j < 0) := by omega
      simp only [Option.map_some', e]

/-- Started on a cell that is already revealed, the worklist loop of `revealAllCells`
takes the start cell off the queue and stops: the board is returned as it is. -/
theorem revealAllCells_revealed {b : Board} {r c : Nat} {x : Cell}
    (hx : b.cell? r c = some x) (hr : x.revealed = true) :
    revealAllCells b r c = Except.ok b := by
  unfold revealAllCells revealFuel
  show revealLoop (8 * (SIZE * SIZE) + 1 + 1) b [(r, c)] = Except.ok b
  rw [revealLoop]
  simp [hx, hr, revealLoop]

/-! ## `handleCellClick`, case by case -/

theorem lookup_natCast (b : Board) (r c : Nat) : lookup b (r : Int) (c : Int) = b.cell? r c := by
  simp [lookup]

theorem lookup_some {b : Board} {row col : Int} {x : Cell} (h : lookup b row col = some x) :
    0 ≤ row ∧ 0 ≤ col ∧ b.cell? row.toNat col.toNat = some x := by
  unfold lookup at h
  split at h
  · rename_i h0
    exact ⟨h0.1, h0.2, h⟩
  · cases h

theorem lookup_none_of_out {b : Board} (h : b.WF) {row col : Int}
    (ho : row < 0 ∨ (SIZE : Int) ≤ row ∨ col < 0 ∨ (SIZE : Int) ≤ col) :
    lookup b row col = none := by
  unfold lookup
  split
  · rename_i h0
    apply cell?_none_of_ge h
    omega
  · rfl

theorem click_gameOver {s : State} (now : Nat) (row col : Int) (hg : s.gameOver = true) :
    handleCellClick s now row col = Except.ok s := by
  simp [handleCellClick, hg]

theorem click_revealed {s : State} (now : Nat) {row col : Int} {x : Cell}
    (hx : lookup s.board row col = some x) (hr : x.revealed = true) :
    handleCellClick s now row col = Except.ok s := by
  unfold handleCellClick
  split
  · rfl
  · simp [hx, hr]

theorem click_undefined {s : State} (now : Nat) {row col : Int} (hg : s.gameOver = false)
    (hx : lookup s.board row col = none) :
    handleCellClick s now row col = Except.error (Err.typeError, s) := by
  simp [handleCellClick, hg, hx]

theorem click_flagMode {s : State} (now : Nat) {row col : Int} {x : Cell}
    (hg : s.gameOver = false) (hm : s.isFlagged = true)
    (hx : lookup s.board row col = some x) (hr : x.revealed = false) :
    handleCellClick s now row col = Except.ok { s with
      startTime := startClock s.startTime now
      flaggedCells := toggleFlag s.flaggedCells row col } := by
  simp [handleCellClick, hg, hx, hr, hm]

theorem click_flaggedCell {s : State} (now : Nat) {row col : Int} {x : Cell}
    (hg : s.gameOver = false) (hm : s.isFlagged = false)
    (hx : lookup s.board row col = some x) (hr : x.revealed = false) (hf : x.flagged = true) :
    handleCellClick s now row col = Except.ok { s with
      startTime := startClock s.startTime now
      board := s.board.update row.toNat col.toNat clearFlagged
      flaggedCells := s.flaggedCells.filter (Pos.isNotAt row col) } := by
  simp [handleCellClick, hg, hx, hr, hm, hf]

theorem click_number {s : State} (now : Nat) {row col : Int} {x : Cell}
    (hg : s.gameOver = false) (hm : s.isFlagged = false)
    (hx : lookup s.board row col = some x) (hr : x.revealed = false) (hf : x.flagged = false)
    (hv : x.value ≠ Value.mine) :
    handleCellClick s now row col = Except.ok { s with
      startTime := startClock s.startTime now
      board := s.board.update row.toNat col.toNat setRevealed } := by
  have hc := (lookup_some hx).2.2
  have hu : (s.board.update row.toNat col.toNat setRevealed).cell? row.toNat col.toNat
      = some (setRevealed x) := by rw [cell?_update_self, hc]; rfl
  unfold handleCellClick
  simp only [hg, hx, hr, hm, hf, Bool.false_eq_true, if_false]
  cases hval : x.value with
  | mine => exact absurd hval hv
  | num n =>
    cases n with
    | zero =>
      simp only [revealAllCells_revealed hu (show (setRevealed x).revealed = true from rfl)]
    | succ n => rfl

theorem click_mine {s : State} (now : Nat) {row col : Int} {x : Cell} (hwf : s.board.WF)
    (hg : s.gameOver = false) (hm : s.isFlagged = false)
    (hx : lookup s.board row col = some x) (hr : x.revealed = false) (hf : x.flagged = false)
    (hv : x.value = Value.mine) :
    ∃ t, t.WF ∧
      (∀ i j, t.cell? i j =
        ((s.board.update row.toNat col.toNat setRevealed).cell? i j).map bombShown) ∧
      handleCellClick s now row col = Except.ok { s with
        startTime := startClock s.startTime now
        board := t
        gameOver := true } := by
  obtain ⟨t, ht, htwf, hcells⟩ :=
    revealAllBombs_spec (WF_update hwf row.toNat col.toNat setRevealed)
  refine ⟨t, htwf, hcells, ?_⟩
  unfold handleCellClick
  simp only [hg, hx, hr, hm, hf, Bool.false_eq_true, if_false, hv, ht]

/-! ## Invariants of the reachable states -/

theorem unflagged_update_setRevealed {b : Board} (h : b.Unflagged) (r c : Nat) :
    (b.update r c setRevealed).Unflagged := by
  intro i j x hx
  rw [cell?_update] at hx
  split at hx
  · cases hy : b.cell? r c with
    | none => simp [hy] at hx
    | some y =>
      simp only [hy, Option.map_some', Option.some.injEq] at hx
      subst hx
      exact h r c y hy
  · exact h i j x hx

theorem click_inv {s s1 : State} {now : Nat} {row col : Int}
    (hwf : s.board.WF) (hu : s.board.Unflagged)
    (h : handleCellClick s now row col = Except.ok s1) :
    s1.board.WF ∧ s1.board.Unflagged := by
  by_cases hg : s.gameOver = true
  · rw [click_gameOver now row col hg] at h
    cases h
    exact ⟨hwf, hu⟩
  · have hg : s.gameOver = false := by simpa using hg
    cases hx : lookup s.board row col with
    | none =>
      rw [click_undefined now hg hx] at h
      cases h
    | some x =>
      have hf : x.flagged = false := hu _ _ x (lookup_some hx).2.2
      by_cases hr : x.revealed = true
      · rw [click_revealed now hx hr] at h
        cases h
        exact ⟨hwf, hu⟩
      · have hr : x.revealed = false := by simpa using hr
        by_cases hm : s.isFlagged = true
        · rw [click_flagMode now hg hm hx hr] at h
          cases h
          exact ⟨hwf, hu⟩
        · have hm : s.isFlagged = false := by simpa using hm
          by_cases hv : x.value = Value.mine
          · obtain ⟨t, htwf, hcells, ht⟩ := click_mine now hwf hg hm hx hr hf hv
            rw [ht] at h
            cases h
            refine ⟨htwf, ?_⟩
            intro i j y hy
            change t.cell? i j = some y at hy
            rw [hcells] at hy
            cases hz : (s.board.update row.toNat col.toNat setRevealed).cell? i j with
            | none => simp [hz] at hy
            | some z =>
              simp only [hz, Option.map_some', Option.some.injEq] at hy
              subst hy
              have := unflagged_update_setRevealed hu row.toNat col.toNat i j z hz
              unfold bombShown
              split
              · exact this
              · exact this
          · rw [click_number now hg hm hx hr hf hv] at h
            cases h
            exact ⟨WF_update hwf _ _ _, unflagged_update_setRevealed hu _ _⟩

theorem initialized_inv {s : State} (h : Initialized s) : s.board.WF ∧ s.board.Unflagged := by
  obtain ⟨d, s0, hs⟩ := h
  obtain ⟨t, hwf, hc, ht⟩ := initializeBoard_spec d s0
  rw [ht] at hs
  cases hs
  refine ⟨hwf, ?_⟩
  intro r c x hx
  change t.cell? r c = some x at hx
  obtain ⟨hr, hcl⟩ := lt_of_cell?_some hwf hx
  rw [hc, freshBoard_cell? _ hr hcl] at hx
  simp only [Option.map_some', Option.some.injEq] at hx
  subst hx
  unfold counted mkCell
  split <;> rfl

theorem step_inv {s s1 : State} (hwf : s.board.WF) (hu : s.board.Unflagged)
    (h : Step s s1) : s1.board.WF ∧ s1.board.Unflagged := by
  rcases h with ⟨now, row, col, h⟩ | h | ⟨row, col, h⟩ | h | ⟨now, h⟩
  · exact click_inv hwf hu h
  · subst h; exact ⟨hwf, hu⟩
  · subst h; exact ⟨hwf, hu⟩
  · subst h
    unfold handleContextMenuClick
    split <;> exact ⟨hwf, hu⟩
  · subst h
    unfold tick
    split
    · exact ⟨hwf, hu⟩
    · split <;> exact ⟨hwf, hu⟩

theorem reachable_inv {s : State} (h : Reachable s) : s.board.WF ∧ s.board.Unflagged := by
  induction h with
  | init s hs => exact initialized_inv hs
  | step s s1 _ hstep ih => exact step_inv ih.1 ih.2 hstep

/-! ## Facts about the concrete states -/

theorem startState_eq : initializeBoard zeroDraws mountState = Except.ok startState := by
  decide!

theorem startState_reachable : Reachable startState :=
  Reachable.init _ ⟨zeroDraws, mountState, startState_eq⟩

theorem startState_mines :
    gridCells.filter (fun p => isMineAt startState.board p.1 p.2) =
      [(0, 1), (0, 2), (0, 3), (0, 4), (0, 5), (0, 6), (0, 7), (0, 8), (0, 9), (1, 0)] := by
  decide!

theorem click_total {s : State} (hwf : s.board.WF) (hu : s.board.Unflagged) (now : Nat)
    {r c : Nat} (hr : r < SIZE) (hc : c < SIZE) :
    ∃ s1, handleCellClick s now r c = Except.ok s1 := by
  obtain ⟨x, hx⟩ := cell?_some_of_lt hwf hr hc
  have hf : x.flagged = false := hu r c x hx
  rw [← lookup_natCast] at hx
  by_cases hg : s.gameOver = true
  · exact ⟨s, click_gameOver now _ _ hg⟩
  · have hg : s.gameOver = false := by simpa using hg
    by_cases hrev : x.revealed = true
    · exact ⟨s, click_revealed now hx hrev⟩
    · have hrev : x.revealed = false := by simpa using hrev
      by_cases hm : s.isFlagged = true
      · exact ⟨_, click_flagMode now hg hm hx hrev⟩
      · have hm : s.isFlagged = false := by simpa using hm
        by_cases hv : x.value = Value.mine
        · obtain ⟨t, _, _, ht⟩ := click_mine now hwf hg hm hx hrev hf hv
          exact ⟨_, ht⟩
        · exact ⟨_, click_number now hg hm hx hrev hf hv⟩

theorem clickAll_reachable (cells : List (Nat × Nat)) (hcells : ∀ p ∈ cells, p ∈ gridCells)
    {s : State} (hs : Reachable s) : Reachable (clickAll s cells) := by
  induction cells generalizing s with
  | nil => exact hs
  | cons p cells ih =>
    obtain ⟨hp1, hp2⟩ := mem_gridCells.1 (hcells p (List.mem_cons_self _ _))
    obtain ⟨s1, h1⟩ := click_total (reachable_inv hs).1 (reachable_inv hs).2 0 hp1 hp2
    have hs1 : Reachable s1 := Reachable.step s s1 hs (Or.inl ⟨0, p.1, p.2, h1⟩)
    have := ih (fun q hq => hcells q (List.mem_cons_of_mem _ hq)) hs1
    simpa [clickAll, h1] using this

theorem almostWon_reachable : Reachable almostWon :=
  clickAll_reachable safeCells (fun _ hp => (List.mem_filter.1 hp).1) startState_reachable

theorem bombShown_value (x : Cell) : (bombShown x).value = x.value := by
  unfold bombShown
  split <;> rfl

theorem bombShown_revealed {x : Cell} (h : x.value = Value.mine) :
    (bombShown x).revealed = true := by
  simp [bombShown, h, setRevealed]

theorem toggleFlag_twice {fc : List Pos} {row col : Int}
    (h : fc.any (Pos.isAt row col) = false) :
    (toggleFlag fc row col).any (Pos.isAt row col) = true ∧
      toggleFlag (toggleFlag fc row col) row col = fc := by
  have h1 : toggleFlag fc row col = fc ++ [{ row := row, col := col }] := by
    simp [toggleFlag, h]
  have h2 : (fc ++ [({ row := row, col := col } : Pos)]).any (Pos.isAt row col) = true := by
    simp [Pos.isAt]
  refine ⟨by rw [h1, h2], ?_⟩
  rw [h1]
  unfold toggleFlag
  rw [if_pos h2, List.filter_append]
  have h3 : fc.filter (Pos.isNotAt row col) = fc := by
    rw [List.filter_eq_self]
    intro p hp
    have := List.any_eq_false.1 h p hp
    simp only [Pos.isAt, Bool.and_eq_true, beq_iff_eq, not_and] at this
    simp only [Pos.isNotAt, Bool.or_eq_true, bne_iff_ne, ne_eq]
    by_cases hrow : p.row = row
    · exact Or.inr (this hrow)
    · exact Or.inl hrow
  rw [h3]
  simp [Pos.isNotAt]

/-! ## The click handler: claims C3 to C9 -/

/-- C3, the code at a failing input.  In `startState` (a board `initializeBoard` built,
nothing revealed, flag mode off) the cell `(5, 5)` and its eight neighbours have value 0,
so the flood region of `(5, 5)` contains all nine of them.  The reveal click on `(5, 5)`
returns the board with `revealed` set on `(5, 5)` alone: the handler marks the cell
revealed before it calls `revealAllCells`, whose loop then skips the start cell. -/
theorem click_zero_reveals_one_cell :
    startState.gameOver = false ∧ startState.isFlagged = false ∧
    revealedCells startState.board = [] ∧
    (windowCells 5 5).map (fun p => (startState.board.cell? p.1 p.2).map (fun x => x.value))
      = List.replicate 9 (some (Value.num 0)) ∧
    handleCellClick startState 0 5 5 = Except.ok { startState with
      startTime := some 0
      board := startState.board.update 5 5 setRevealed } ∧
    revealedCells (startState.board.update 5 5 setRevealed) = [(5, 5)] := by
  decide!

/-- C4: in every in-progress state, a reveal click (flag mode off) on an unrevealed cell
whose value is `'mine'` returns with `gameOver` true and with `revealed = true` on every
cell of the board whose value is `'mine'`; no cell value is changed by the click. -/
theorem click_mine_reveals_all_mines (s : State) (now : Nat) (row col : Int) (x : Cell)
    (hs : Reachable s) (hg : s.gameOver = false) (hm : s.isFlagged = false)
    (hx : lookup s.board row col = some x) (hr : x.revealed = false)
    (hv : x.value = Value.mine) :
    ∃ s1, handleCellClick s now row col = Except.ok s1 ∧ s1.gameOver = true ∧
      (∀ cells ∈ s1.board, ∀ y ∈ cells, y.value = Value.mine → y.revealed = true) ∧
      (∀ i j, (s1.board.cell? i j).map (fun y => y.value) =
        (s.board.cell? i j).map (fun y => y.value)) := by
  obtain ⟨hwf, hu⟩ := reachable_inv hs
  obtain ⟨t, _, hcells, ht⟩ :=
    click_mine now hwf hg hm hx hr (hu _ _ x (lookup_some hx).2.2) hv
  refine ⟨_, ht, rfl, ?_, ?_⟩
  · intro cells hc y hy hmine
    obtain ⟨i, j, hij⟩ := cell?_of_mem hc hy
    change t.cell? i j = some y at hij
    rw [hcells] at hij
    cases hz : (s.board.update row.toNat col.toNat setRevealed).cell? i j with
    | none => simp [hz] at hij
    | some z =>
      simp only [hz, Option.map_some', Option.some.injEq] at hij
      subst hij
      rw [bombShown_value] at hmine
      exact bombShown_revealed hmine
  · intro i j
    show (t.cell? i j).map (fun y => y.value) = _
    rw [hcells, cell?_update]
    split
    · rename_i h
      obtain ⟨rfl, rfl⟩ := h
      cases s.board.cell? row.toNat col.toNat <;> simp [bombShown_value, setRevealed]
    · cases s.board.cell? i j <;> simp [bombShown_value]

/-- Witness of C4: the reveal click on the mine `(0, 1)` of `startState`. -/
theorem click_mine_reveals_all_mines_witness :
    lookup startState.board 0 1 =
      some { row := 0, col := 1, value := Value.mine, revealed := false, flagged := false } ∧
    ∃ s1, handleCellClick startState 0 0 1 = Except.ok s1 ∧ s1.gameOver = true ∧
      (∀ cells ∈ s1.board, ∀ y ∈ cells, y.value = Value.mine → y.revealed = true) ∧
      (∀ i j, (s1.board.cell? i j).map (fun y => y.value) =
        (startState.board.cell? i j).map (fun y => y.value)) :=
  ⟨by decide!, click_mine_reveals_all_mines startState 0 0 1
    { row := 0, col := 1, value := Value.mine, revealed := false, flagged := false }
    startState_reachable (by decide!) (by decide!) (by decide!) rfl rfl⟩

/-- C5 refuted: in `almostWon` the only unrevealed cell that is not a mine is `(9, 9)`; the
reveal click on it returns `allSafeRevealed`, where `gameOver` is still false, and the next
click, on the unrevealed mine `(0, 1)`, changes both the board and `gameOver`. -/
theorem last_safe_cell_not_terminal :
    almostWon.gameOver = false ∧ almostWon.isFlagged = false ∧
    hiddenSafe almostWon.board = [(9, 9)] ∧
    handleCellClick almostWon 0 9 9 = Except.ok allSafeRevealed ∧
    hiddenSafe allSafeRevealed.board = [] ∧
    allSafeRevealed.gameOver = false ∧
    handleCellClick allSafeRevealed 0 0 1 = Except.ok lostAfterAll ∧
    lostAfterAll.gameOver = true ∧ lostAfterAll.board ≠ allSafeRevealed.board := by
  decide!

/-- C5 as amended: in every in-progress state in which exactly one cell `(r, c)` that is
not a mine is still unrevealed, the reveal click on `(r, c)` (flag mode off) returns a state
in which every cell that is not a mine is revealed and `gameOver` is still false; the game
is not finished: a later reveal click on an unrevealed mine returns with `gameOver` true
and that mine revealed. -/
theorem last_safe_cell_keeps_game_open (s : State) (now : Nat) (r c : Nat) (x : Cell)
    (hs : Reachable s) (hg : s.gameOver = false) (hm : s.isFlagged = false)
    (hx : s.board.cell? r c = some x) (hv : x.value ≠ Value.mine) (hr : x.revealed = false)
    (hlast : ∀ i j y, s.board.cell? i j = some y → y.value ≠ Value.mine →
      y.revealed = false → i = r ∧ j = c) :
    ∃ s1, handleCellClick s now r c = Except.ok s1 ∧
      (∀ i j y, s1.board.cell? i j = some y → y.value ≠ Value.mine → y.revealed = true) ∧
      s1.gameOver = false ∧
      ∀ (now2 : Nat) (row2 col2 : Int) (z : Cell), lookup s1.board row2 col2 = some z →
        z.value = Value.mine → z.revealed = false →
        ∃ s2 z2, handleCellClick s1 now2 row2 col2 = Except.ok s2 ∧ s2.gameOver = true ∧
          lookup s2.board row2 col2 = some z2 ∧ z2.revealed = true := by
  obtain ⟨hwf, hu⟩ := reachable_inv hs
  have hx2 : lookup s.board r c = some x := by rw [lookup_natCast]; exact hx
  have h1 := click_number now hg hm hx2 hr (hu r c x hx) hv
  simp only [Int.toNat_natCast] at h1
  have hs1 := Reachable.step s _ hs (Or.inl ⟨now, r, c, h1⟩)
  refine ⟨_, h1, ?_, hg, ?_⟩
  · intro i j y hy hvy
    change (s.board.update r c setRevealed).cell? i j = some y at hy
    rw [cell?_update] at hy
    split at hy
    · simp only [hx, Option.map_some', Option.some.injEq] at hy
      subst hy
      rfl
    · rename_i hij
      cases hrev : y.revealed with
      | true => rfl
      | false => exact absurd (hlast i j y hy hvy hrev) hij
  · intro now2 row2 col2 z hz hvz hrz
    obtain ⟨hwf1, hu1⟩ := reachable_inv hs1
    obtain ⟨t, _, hcells, ht⟩ :=
      click_mine now2 hwf1 hg hm hz hrz (hu1 _ _ z (lookup_some hz).2.2) hvz
    obtain ⟨h0r, h0c, hzc⟩ := lookup_some hz
    refine ⟨_, bombShown (setRevealed z), ht, rfl, ?_, ?_⟩
    · show lookup t row2 col2 = _
      unfold lookup
      rw [if_pos ⟨h0r, h0c⟩, hcells, cell?_update_self, hzc]
      rfl
    · exact bombShown_revealed hvz

/-- Witness of C5 as amended: `almostWon` and its last safe cell `(9, 9)`. -/
theorem last_safe_cell_keeps_game_open_witness :
    hiddenSafe almostWon.board = [(9, 9)] ∧
    ∃ s1, handleCellClick almostWon 0 ((9 : Nat) : Int) ((9 : Nat) : Int) = Except.ok s1 ∧
      (∀ i j y, s1.board.cell? i j = some y → y.value ≠ Value.mine → y.revealed = true) ∧
      s1.gameOver = false ∧
      ∀ (now2 : Nat) (row2 col2 : Int) (z : Cell), lookup s1.board row2 col2 = some z →
        z.value = Value.mine → z.revealed = false →
        ∃ s2 z2, handleCellClick s1 now2 row2 col2 = Except.ok s2 ∧ s2.gameOver = true ∧
          lookup s2.board row2 col2 = some z2 ∧ z2.revealed = true :=
  ⟨by decide!, last_safe_cell_keeps_game_open almostWon 0 9 9
    { row := 9, col := 9, value := Value.num 0, revealed := false, flagged := false }
    almostWon_reachable (by decide!) (by decide!) (by decide!) (by decide) rfl
    (by
      have h : ∀ p ∈ gridCells, ∀ y, almostWon.board.cell? p.1 p.2 = some y →
          y.value ≠ Value.mine → y.revealed = false → p.1 = 9 ∧ p.2 = 9 := by decide!
      intro i j y hy hv hr
      obtain ⟨hi, hj⟩ := lt_of_cell?_some (reachable_inv almostWon_reachable).1 hy
      exact h (i, j) (mem_gridCells.2 ⟨hi, hj⟩) y hy hv hr)⟩

/-- C6, the code at a failing input.  In `startState` the mine `(0, 1)` is flagged by a
click in flag mode: the click adds `(0, 1)` to `flaggedCells` and leaves the cell's own
`flagged` field false.  With flag mode switched off again, the click on `(0, 1)` does not
take the `cell.flagged` branch: it reveals the cell and ends the game, while `(0, 1)` is
still listed in `flaggedCells`. -/
theorem click_on_flagged_mine_ends_game :
    handleCellClick (handleFlagToggle startState) 0 0 1 = Except.ok mineFlagged ∧
    mineFlagged.gameOver = false ∧
    mineFlagged.flaggedCells = [{ row := 0, col := 1 }] ∧
    mineFlagged.board.cell? 0 1 =
      some { row := 0, col := 1, value := Value.mine, revealed := false, flagged := false } ∧
    (handleFlagToggle mineFlagged).isFlagged = false ∧
    handleCellClick (handleFlagToggle mineFlagged) 0 0 1 = Except.ok flaggedMineClicked ∧
    flaggedMineClicked.gameOver = true ∧
    flaggedMineClicked.board.cell? 0 1 =
      some { row := 0, col := 1, value := Value.mine, revealed := true, flagged := false } ∧
    flaggedMineClicked.flaggedCells = [{ row := 0, col := 1 }] := by
  decide!

/-- C7: in every state in which `gameOver` is true or the target cell `(row, col)` is
already revealed, `handleCellClick(row, col)` returns the state as it is, in flag mode and
in reveal mode alike: the board, `gameOver`, `flaggedCells` and `startTime` are unchanged. -/
theorem click_is_noop (s : State) (now : Nat) (row col : Int)
    (h : s.gameOver = true ∨ ∃ x, lookup s.board row col = some x ∧ x.revealed = true) :
    handleCellClick s now row col = Except.ok s := by
  rcases h with hg | ⟨x, hx, hr⟩
  · exact click_gameOver now row col hg
  · exact click_revealed now hx hr

/-- Witness of C7: a click on the mine `(0, 1)` after the game is lost, and a click in flag
mode on the revealed cell `(9, 9)` of the game still in progress. -/
theorem click_is_noop_witness :
    lostAfterAll.gameOver = true ∧
    handleCellClick lostAfterAll 7 0 1 = Except.ok lostAfterAll ∧
    (handleFlagToggle allSafeRevealed).gameOver = false ∧
    lookup (handleFlagToggle allSafeRevealed).board 9 9 =
      some { row := 9, col := 9, value := Value.num 0, revealed := true, flagged := false } ∧
    handleCellClick (handleFlagToggle allSafeRevealed) 7 9 9 =
      Except.ok (handleFlagToggle allSafeRevealed) :=
  ⟨by decide!, click_is_noop lostAfterAll 7 0 1 (Or.inl (by decide!)),
    by decide!, by decide!,
    click_is_noop (handleFlagToggle allSafeRevealed) 7 9 9
      (Or.inr ⟨{ row := 9, col := 9, value := Value.num 0, revealed := true, flagged := false },
        by decide!, rfl⟩)⟩

/-- C8 refuted: in `startState` (game in progress) the click at row 10, outside the grid,
raises a `TypeError`; it does not return. -/
theorem outside_grid_click_raises :
    startState.gameOver = false ∧
    handleCellClick startState 0 10 0 = Except.error (Err.typeError, startState) ∧
    ∀ s1, handleCellClick startState 0 10 0 ≠ Except.ok s1 := by
  have h : handleCellClick startState 0 10 0 = Except.error (Err.typeError, startState) := by
    decide!
  refine ⟨by decide!, h, ?_⟩
  intro s1 h1
  rw [h] at h1
  cases h1

/-- C8 as amended: in every state, for `(row, col)` with `row` or `col` outside
`0..SIZE-1`, `handleCellClick(row, col)` leaves the state (board, `gameOver`,
`flaggedCells`) as it is; it returns without an error when `gameOver` is true, and when
`gameOver` is false it raises a `TypeError` at the read of `board[row][col]`, before any
state setter is called. -/
theorem click_outside_grid (s : State) (now : Nat) (row col : Int) (hs : Reachable s)
    (ho : row < 0 ∨ (SIZE : Int) ≤ row ∨ col < 0 ∨ (SIZE : Int) ≤ col) :
    (s.gameOver = true → handleCellClick s now row col = Except.ok s) ∧
    (s.gameOver = false →
      handleCellClick s now row col = Except.error (Err.typeError, s)) :=
  ⟨fun hg => click_gameOver now row col hg,
    fun hg => click_undefined now hg (lookup_none_of_out (reachable_inv hs).1 ho)⟩

/-- Witness of C8 as amended: column -1 in `startState` (in progress) and in
`lostAfterAll` (game over). -/
theorem click_outside_grid_witness :
    handleCellClick startState 3 2 (-1) = Except.error (Err.typeError, startState) ∧
    handleCellClick lostAfterAll 3 2 (-1) = Except.ok lostAfterAll :=
  ⟨(click_outside_grid startState 3 2 (-1) startState_reachable
      (Or.inr (Or.inr (Or.inl (by decide))))).2 (by decide!),
    (click_outside_grid lostAfterAll 3 2 (-1)
      (clickAll_reachable [(0, 1)] (by decide)
        (clickAll_reachable [(9, 9)] (by decide) almostWon_reachable))
      (Or.inr (Or.inr (Or.inl (by decide))))).1 (by decide!)⟩

/-- C9: in every in-progress state, for every unrevealed cell `(row, col)` that is not
listed in `flaggedCells`, two consecutive clicks on it in flag mode return; after the first
the cell is listed in `flaggedCells`, after the second `flaggedCells` is the list it was
(so the flag status of every cell is as before), and no click changes the board, `gameOver`
or the flag mode. -/
theorem flag_toggle_twice (s : State) (now1 now2 : Nat) (row col : Int) (x : Cell)
    (hg : s.gameOver = false) (hm : s.isFlagged = true)
    (hx : lookup s.board row col = some x) (hr : x.revealed = false)
    (hu : s.flaggedCells.any (Pos.isAt row col) = false) :
    ∃ s1 s2, handleCellClick s now1 row col = Except.ok s1 ∧
      handleCellClick s1 now2 row col = Except.ok s2 ∧
      s1.flaggedCells.any (Pos.isAt row col) = true ∧ s1.board = s.board ∧
      s2.flaggedCells = s.flaggedCells ∧ s2.board = s.board ∧
      s2.gameOver = false ∧ s2.isFlagged = true := by
  have h1 := click_flagMode now1 hg hm hx hr
  have h2 := click_flagMode (s := { s with
      startTime := startClock s.startTime now1
      flaggedCells := toggleFlag s.flaggedCells row col }) now2 hg hm hx hr
  obtain ⟨ha, hb⟩ := toggleFlag_twice hu
  exact ⟨_, _, h1, h2, ha, rfl, hb, rfl, hg, hm⟩

/-- Witness of C9: the cell `(0, 1)` of `startState`, in flag mode. -/
theorem flag_toggle_twice_witness :
    ∃ s1 s2, handleCellClick (handleFlagToggle startState) 4 0 1 = Except.ok s1 ∧
      handleCellClick s1 5 0 1 = Except.ok s2 ∧
      s1.flaggedCells.any (Pos.isAt 0 1) = true ∧
      s1.board = (handleFlagToggle startState).board ∧
      s2.flaggedCells = (handleFlagToggle startState).flaggedCells ∧
      s2.board = (handleFlagToggle startState).board ∧
      s2.gameOver = false ∧ s2.isFlagged = true :=
  flag_toggle_twice (handleFlagToggle startState) 4 5 0 1
    { row := 0, col := 1, value := Value.mine, revealed := false, flagged := false }
    (by decide!) (by decide!) (by decide!) rfl (by decide!)

/-! ## Reveal is one-way -/

theorem revealedLE_refl (b : Board) : b.RevealedLE b :=
  fun _ _ x hx hr => ⟨x, hx, hr⟩

theorem revealedLE_trans {a b c : Board} (h1 : a.RevealedLE b) (h2 : b.RevealedLE c) :
    a.RevealedLE c := by
  intro i j x hx hr
  obtain ⟨y, hy, hyr⟩ := h1 i j x hx hr
  exact h2 i j y hy hyr

theorem revealedLE_update (b : Board) (r c : Nat) (f : Cell → Cell)
    (hf : ∀ x, x.revealed = true → (f x).revealed = true) : b.RevealedLE (b.update r c f) := by
  intro i j x hx hr
  rw [cell?_update]
  split
  · rename_i h
    obtain ⟨rfl, rfl⟩ := h
    exact ⟨f x, by simp [hx], hf x hr⟩
  · exact ⟨x, hx, hr⟩

theorem revealedLE_setRevealed (b : Board) (r c : Nat) :
    b.RevealedLE (b.update r c setRevealed) :=
  revealedLE_update b r c setRevealed (fun _ _ => rfl)

/-- A loop whose every step stays within a preorder stays within it, whether it runs to
the end or raises on the way. -/
theorem foldlM_after {α ε σ : Type} (R : σ → σ → Prop) (hrefl : ∀ s, R s s)
    (htrans : ∀ a b c, R a b → R b c → R a c) (f : σ → α → Except (ε × σ) σ)
    (hstep : ∀ s a, R s (after (f s a))) (l : List α) (s : σ) :
    R s (after (l.foldlM f s)) := by
  induction l generalizing s with
  | nil => exact hrefl s
  | cons a l ih =>
    rw [List.foldlM_cons]
    have h1 := hstep s a
    cases hfa : f s a with
    | error e =>
      rw [hfa] at h1
      exact h1
    | ok t =>
      rw [hfa] at h1
      exact htrans _ _ _ h1 (ih t)

theorem revealBomb_mono (b : Board) (row col : Nat) :
    b.RevealedLE (after (revealBomb b row col)) := by
  unfold revealBomb
  split
  · exact revealedLE_refl b
  · show b.RevealedLE (if _ then _ else _)
    split
    · exact revealedLE_setRevealed b row col
    · exact revealedLE_refl b

theorem revealAllBombs_mono (b : Board) : b.RevealedLE (after (revealAllBombs b)) := by
  unfold revealAllBombs
  apply foldlM_after Board.RevealedLE revealedLE_refl (fun _ _ _ => revealedLE_trans)
  intro s row
  apply foldlM_after Board.RevealedLE revealedLE_refl (fun _ _ _ => revealedLE_trans)
  intro t col
  exact revealBomb_mono t row col

theorem revealLoop_mono (fuel : Nat) (b : Board) (queue : List (Nat × Nat)) :
    b.RevealedLE (after (revealLoop fuel b queue)) := by
  induction fuel generalizing b queue with
  | zero =>
    cases queue with
    | nil => exact revealedLE_refl b
    | cons p q => exact revealedLE_refl b
  | succ fuel ih =>
    cases queue with
    | nil => exact revealedLE_refl b
    | cons p q =>
      obtain ⟨r, c⟩ := p
      rw [revealLoop]
      split
      · exact revealedLE_refl b
      · split
        · split
          · split
            · exact revealedLE_setRevealed b r c
            · exact revealedLE_trans (revealedLE_setRevealed b r c) (ih _ _)
          · exact revealedLE_trans (revealedLE_setRevealed b r c) (ih _ _)
        · exact ih _ _

theorem handleCellClick_mono (s : State) (now : Nat) (row col : Int) :
    s.board.RevealedLE (after (handleCellClick s now row col)).board := by
  unfold handleCellClick
  split
  · exact revealedLE_refl _
  · split
    · exact revealedLE_refl _
    · split
      · exact revealedLE_refl _
      · split
        · exact revealedLE_refl _
        · split
          · exact revealedLE_update _ _ _ _ (fun _ h => h)
          · split
            · have h := revealAllBombs_mono (s.board.update row.toNat col.toNat setRevealed)
              have h0 := revealedLE_setRevealed s.board row.toNat col.toNat
              split
              · rename_i e he
                rw [he] at h
                exact revealedLE_trans h0 h
              · rename_i t ht
                rw [ht] at h
                exact revealedLE_trans h0 h
            · have h := revealLoop_mono revealFuel
                (s.board.update row.toNat col.toNat setRevealed) [(row.toNat, col.toNat)]
              have h0 := revealedLE_setRevealed s.board row.toNat col.toNat
              unfold revealAllCells
              split
              · rename_i e he
                rw [he] at h
                exact revealedLE_trans h0 h
              · rename_i t ht
                rw [ht] at h
                exact revealedLE_trans h0 h
            · exact revealedLE_setRevealed _ _ _

/-- C11: reveal is one-way.  Whatever the state and the arguments, every cell that is
revealed before a call of `handleCellClick`, `revealAllCells` or `revealAllBombs` is
revealed on the board the call leaves behind (whether it returns or raises); the other
handlers do not write the board at all. -/
theorem reveal_is_one_way :
    (∀ (s : State) (now : Nat) (row col : Int),
      s.board.RevealedLE (after (handleCellClick s now row col)).board) ∧
    (∀ (b : Board) (row col : Nat), b.RevealedLE (after (revealAllCells b row col))) ∧
    (∀ (b : Board), b.RevealedLE (after (revealAllBombs b))) ∧
    (∀ (s : State) (row col : Int) (now : Nat),
      (handleFlagToggle s).board = s.board ∧ (handleCellRightClick s row col).board = s.board ∧
      (handleContextMenuClick s).board = s.board ∧ (tick s now).board = s.board) := by
  refine ⟨handleCellClick_mono, fun b row col => revealLoop_mono _ b _, revealAllBombs_mono, ?_⟩
  intro s row col now
  refine ⟨rfl, rfl, ?_, ?_⟩
  · unfold handleContextMenuClick
    split <;> rfl
  · unfold tick
    split
    · rfl
    · split <;> rfl

/-! ## Flags: claims C12, C16, C17, C19 -/

theorem mineFlagged_reachable : Reachable mineFlagged :=
  clickAll_reachable [(0, 1)] (by decide)
    (Reachable.step _ _ startState_reachable (Or.inr (Or.inl rfl)))

theorem otherMineClicked_reachable : Reachable otherMineClicked :=
  clickAll_reachable [(0, 2)] (by decide)
    (Reachable.step _ _ mineFlagged_reachable (Or.inr (Or.inl rfl)))

theorem toggleFlag_any_ne (fc : List Pos) (row col : Int) (r c : Nat)
    (h : ¬ ((r : Int) = row ∧ (c : Int) = col)) :
    (toggleFlag fc row col).any (Pos.isAt r c) = fc.any (Pos.isAt r c) := by
  unfold toggleFlag
  split
  · rw [List.any_filter]
    apply congrArg
    funext p
    by_cases hp : Pos.isAt (↑r) (↑c) p = true
    · have hp2 := hp
      simp only [Pos.isAt, Bool.and_eq_true, beq_iff_eq] at hp2
      have hn : Pos.isNotAt row col p = true := by
        simp only [Pos.isNotAt, Bool.or_eq_true, bne_iff_ne, ne_eq]
        by_contra hcon
        push_neg at hcon
        exact h ⟨hp2.1 ▸ hcon.1, hp2.2 ▸ hcon.2⟩
      rw [hn, hp]
      rfl
    · have hp : Pos.isAt (↑r) (↑c) p = false := by simpa using hp
      rw [hp]
      simp
  · rw [List.any_append]
    have hn : Pos.isAt (↑r) (↑c) { row := row, col := col } = false := by
      simp only [Pos.isAt, Bool.and_eq_false_iff, beq_eq_false_iff_ne, ne_eq]
      by_contra hcon
      push_neg at hcon
      exact h ⟨hcon.1.symm, hcon.2.symm⟩
    simp [hn]

/-- What a click in flag mode leaves behind: the state itself, or the state with the
listing of the unrevealed target cell toggled (and the clock started). -/
theorem flagMode_click_after (s : State) (now : Nat) (row col : Int)
    (hm : s.isFlagged = true) :
    after (handleCellClick s now row col) = s ∨
    ∃ x, lookup s.board row col = some x ∧ x.revealed = false ∧
      after (handleCellClick s now row col) = { s with
        startTime := startClock s.startTime now
        flaggedCells := toggleFlag s.flaggedCells row col } := by
  by_cases hg : s.gameOver = true
  · left
    rw [click_gameOver now row col hg]
    rfl
  · have hg : s.gameOver = false := by simpa using hg
    cases hx : lookup s.board row col with
    | none =>
      left
      rw [click_undefined now hg hx]
      rfl
    | some x =>
      by_cases hr : x.revealed = true
      · left
        rw [click_revealed now hx hr]
        rfl
      · have hr : x.revealed = false := by simpa using hr
        right
        refine ⟨x, rfl, hr, ?_⟩
        rw [click_flagMode now hg hm hx hr]
        rfl

theorem oneShownFlagMode_reachable : Reachable oneShownFlagMode :=
  Reachable.step _ _ (clickAll_reachable [(0, 0)] (by decide) startState_reachable)
    (Or.inr (Or.inl rfl))

/-- C12 refuted, in two reachable states.  In `otherMineClicked` (flag-mode click on the
mine `(0, 1)`, flag-mode switch, reveal click on the mine `(0, 2)`) `revealAllBombs` has
revealed the cell `(0, 1)`, which is still listed in `flaggedCells`.  In
`flaggedSafeClicked` (flag-mode click on `(5, 5)`, flag-mode switch, reveal click on
`(5, 5)`) the game is in progress and the cell `(5, 5)` is revealed and listed. -/
theorem revealed_and_listed_cells :
    Reachable otherMineClicked ∧
    mineFlagged.flaggedCells = [{ row := 0, col := 1 }] ∧
    mineFlagged.board.cell? 0 1 =
      some { row := 0, col := 1, value := Value.mine, revealed := false, flagged := false } ∧
    handleCellClick (handleFlagToggle mineFlagged) 0 0 2 = Except.ok otherMineClicked ∧
    otherMineClicked.board.cell? 0 1 =
      some { row := 0, col := 1, value := Value.mine, revealed := true, flagged := false } ∧
    otherMineClicked.listed 0 1 = true ∧
    Reachable flaggedSafeClicked ∧ flaggedSafeClicked.gameOver = false ∧
    flaggedSafeClicked.board.cell? 5 5 =
      some { row := 5, col := 5, value := Value.num 0, revealed := true, flagged := false } ∧
    flaggedSafeClicked.listed 5 5 = true ∧
    ¬ NoRevealedFlag otherMineClicked ∧ ¬ NoRevealedFlag flaggedSafeClicked := by
  have h1 : otherMineClicked.board.cell? 0 1 =
      some { row := 0, col := 1, value := Value.mine, revealed := true, flagged := false } := by
    decide!
  have h2 : otherMineClicked.listed 0 1 = true := by decide!
  have h3 : flaggedSafeClicked.board.cell? 5 5 =
      some { row := 5, col := 5, value := Value.num 0, revealed := true, flagged := false } := by
    decide!
  have h4 : flaggedSafeClicked.listed 5 5 = true := by decide!
  refine ⟨otherMineClicked_reachable, by decide!, by decide!, by decide!, h1, h2, ?_,
    by decide!, h3, h4, ?_, ?_⟩
  · exact clickAll_reachable [(5, 5)] (by decide)
      (Reachable.step _ _
        (clickAll_reachable [(5, 5)] (by decide)
          (Reachable.step _ _ startState_reachable (Or.inr (Or.inl rfl))))
        (Or.inr (Or.inl rfl)))
  · intro h
    have := (h 0 1 _ h1 rfl).1
    rw [h2] at this
    cases this
  · intro h
    have := (h 5 5 _ h3 rfl).1
    rw [h4] at this
    cases this

/-- C12 as amended: in every state reachable from `initializeBoard` by handler calls, a
`handleCellClick` in flag mode makes no cell both revealed and flagged.  Whether it
returns or raises, it leaves every cell of the board as it is; for every revealed cell it
leaves unchanged whether the cell is listed in `flaggedCells`, and the cell carries
`flagged = false`; so if no cell is both revealed and flagged before the click, none is
after it. -/
theorem flag_click_keeps_revealed_unflagged (s : State) (now : Nat) (row col : Int)
    (hs : Reachable s) (hm : s.isFlagged = true) :
    (after (handleCellClick s now row col)).board = s.board ∧
    (∀ r c x, s.board.cell? r c = some x → x.revealed = true →
      x.flagged = false ∧
      (after (handleCellClick s now row col)).listed r c = s.listed r c) ∧
    (NoRevealedFlag s → NoRevealedFlag (after (handleCellClick s now row col))) := by
  have hu := (reachable_inv hs).2
  have key : (after (handleCellClick s now row col)).board = s.board ∧
      ∀ r c x, s.board.cell? r c = some x → x.revealed = true →
        (after (handleCellClick s now row col)).listed r c = s.listed r c := by
    rcases flagMode_click_after s now row col hm with h | ⟨x, hx, hr, h⟩
    · rw [h]
      exact ⟨rfl, fun _ _ _ _ _ => rfl⟩
    · rw [h]
      refine ⟨rfl, ?_⟩
      intro r c y hy hyr
      apply toggleFlag_any_ne
      rintro ⟨h1, h2⟩
      rw [← h1, ← h2, lookup_natCast, hy] at hx
      cases hx
      rw [hyr] at hr
      cases hr
  refine ⟨key.1, fun r c x hx hr => ⟨hu r c x hx, key.2 r c x hx hr⟩, ?_⟩
  intro hno r c x hx hr
  rw [key.1] at hx
  rw [key.2 r c x hx hr]
  exact hno r c x hx hr

/-- Witness of C12 as amended: in the reachable state `oneShownFlagMode` the game is in
progress, flag mode is on and the cell `(0, 0)` is revealed; the flag-mode click on the
unrevealed cell `(0, 1)` lists `(0, 1)` and leaves `(0, 0)` revealed and unlisted. -/
theorem flag_click_keeps_revealed_unflagged_witness :
    oneShownFlagMode.gameOver = false ∧ oneShownFlagMode.isFlagged = true ∧
    oneShownFlagMode.board.cell? 0 0 =
      some { row := 0, col := 0, value := Value.num 2, revealed := true, flagged := false } ∧
    (after (handleCellClick oneShownFlagMode 0 0 1)).listed 0 1 = true ∧
    oneShownFlagMode.listed 0 1 = false ∧
    NoRevealedFlag oneShownFlagMode ∧
    (after (handleCellClick oneShownFlagMode 0 0 1)).board = oneShownFlagMode.board ∧
    (∀ r c x, oneShownFlagMode.board.cell? r c = some x → x.revealed = true →
      x.flagged = false ∧
      (after (handleCellClick oneShownFlagMode 0 0 1)).listed r c
        = oneShownFlagMode.listed r c) ∧
    (NoRevealedFlag oneShownFlagMode →
      NoRevealedFlag (after (handleCellClick oneShownFlagMode 0 0 1))) :=
  ⟨by decide!, by decide!, by decide!, by decide!, by decide!,
    (by
      intro r c x hx hr
      have hfc : oneShownFlagMode.flaggedCells = [] := by decide!
      have hl : oneShownFlagMode.listed r c = false := by
        unfold State.listed
        rw [hfc]
        rfl
      exact ⟨hl, (reachable_inv oneShownFlagMode_reachable).2 r c x hx⟩),
    flag_click_keeps_revealed_unflagged oneShownFlagMode 0 0 1 oneShownFlagMode_reachable
      (by decide!)⟩

/-- C16: in every in-progress state, a reveal click (flag mode off) on an unrevealed,
unflagged cell whose value is a count `k` with `1 ≤ k ≤ 8` returns; it sets `revealed` on
that cell and changes no other field of it, no other cell, and neither `gameOver` nor
`flaggedCells`. -/
theorem click_count_reveals_one_cell (s : State) (now : Nat) (row col : Int) (x : Cell)
    (k : Nat) (hg : s.gameOver = false) (hm : s.isFlagged = false)
    (hx : lookup s.board row col = some x) (hr : x.revealed = false)
    (hf : x.flagged = false) (hv : x.value = Value.num k) (_hk : 1 ≤ k ∧ k ≤ 8) :
    ∃ s1, handleCellClick s now row col = Except.ok s1 ∧
      lookup s1.board row col = some { x with revealed := true } ∧
      (∀ i j, ¬ (i = row.toNat ∧ j = col.toNat) → s1.board.cell? i j = s.board.cell? i j) ∧
      s1.gameOver = false ∧ s1.flaggedCells = s.flaggedCells := by
  have hne : x.value ≠ Value.mine := by rw [hv]; exact fun h => by cases h
  obtain ⟨h0r, h0c, hc⟩ := lookup_some hx
  refine ⟨_, click_number now hg hm hx hr hf hne, ?_, ?_, hg, rfl⟩
  · show lookup (s.board.update row.toNat col.toNat setRevealed) row col = _
    unfold lookup
    rw [if_pos ⟨h0r, h0c⟩, cell?_update_self, hc]
    rfl
  · intro i j hij
    exact cell?_update_ne _ _ _ _ _ _ hij

/-- Witness of C16: the cell `(0, 0)` of `startState`, whose value is 2. -/
theorem click_count_reveals_one_cell_witness :
    ∃ s1, handleCellClick startState 0 0 0 = Except.ok s1 ∧
      lookup s1.board 0 0 =
        some { row := 0, col := 0, value := Value.num 2, revealed := true, flagged := false } ∧
      (∀ i j, ¬ (i = (0 : Int).toNat ∧ j = (0 : Int).toNat) →
        s1.board.cell? i j = startState.board.cell? i j) ∧
      s1.gameOver = false ∧ s1.flaggedCells = startState.flaggedCells :=
  click_count_reveals_one_cell startState 0 0 0
    { row := 0, col := 0, value := Value.num 2, revealed := false, flagged := false } 2
    (by decide!) (by decide!) (by decide!) rfl rfl rfl (by decide)

/-- C17, the code at two failing inputs.  `handleContextMenuClick` has neither the
`gameOver` check nor the `revealed` check of `handleCellClick`: with the revealed cell
`(9, 9)` selected in a game in progress, and with the cell `(0, 2)` selected after the game
is lost, it adds the selected cell to `flaggedCells`. -/
theorem context_menu_click_flags_anyway :
    revealedSelected.gameOver = false ∧
    revealedSelected.selectedCell = some { row := 9, col := 9 } ∧
    lookup revealedSelected.board 9 9 =
      some { row := 9, col := 9, value := Value.num 0, revealed := true, flagged := false } ∧
    revealedSelected.flaggedCells = [] ∧
    (handleContextMenuClick revealedSelected).flaggedCells = [{ row := 9, col := 9 }] ∧
    lostSelected.gameOver = true ∧
    lostSelected.selectedCell = some { row := 0, col := 2 } ∧
    lostSelected.flaggedCells = [] ∧
    (handleContextMenuClick lostSelected).flaggedCells = [{ row := 0, col := 2 }] := by
  decide!

/-- C19: in every state reachable from `initializeBoard` by handler calls, every cell's
own `flagged` field is false, so the cell that `handleCellClick` reads never has
`cell.flagged` true and the branch of line 92 is not taken; flags are recorded in
`flaggedCells` only. -/
theorem cell_flagged_is_never_set (s : State) (hs : Reachable s) :
    (∀ cells ∈ s.board, ∀ x ∈ cells, x.flagged = false) ∧
    (∀ (row col : Int) (x : Cell), lookup s.board row col = some x → x.flagged = false) := by
  obtain ⟨_, hu⟩ := reachable_inv hs
  constructor
  · intro cells hc x hx
    obtain ⟨r, c, hrc⟩ := cell?_of_mem hc hx
    exact hu r c x hrc
  · intro row col x hx
    exact hu _ _ x (lookup_some hx).2.2

/-- Witness of C19: in the reachable state `mineFlagged` the cell `(0, 1)` is listed in
`flaggedCells` and no cell carries `flagged = true`. -/
theorem cell_flagged_is_never_set_witness :
    mineFlagged.flaggedCells = [{ row := 0, col := 1 }] ∧
    (∀ cells ∈ mineFlagged.board, ∀ x ∈ cells, x.flagged = false) ∧
    (∀ (row col : Int) (x : Cell), lookup mineFlagged.board row col = some x →
      x.flagged = false) :=
  ⟨by decide!, cell_flagged_is_never_set mineFlagged mineFlagged_reachable⟩

/-! ## The flood loop of `revealAllCells` -/

theorem mem_window {r i : Nat} : i ∈ window r ↔ r ≤ i + 1 ∧ i ≤ r + 1 ∧ i < SIZE := by
  unfold window SIZE
  rw [List.mem_range']
  constructor
  · rintro ⟨k, hk, rfl⟩
    omega
  · intro h
    exact ⟨i - (r - 1), by omega, by omega⟩

theorem mem_windowCells {r c : Nat} {p : Nat × Nat} :
    p ∈ windowCells r c ↔ p.1 ∈ window r ∧ p.2 ∈ window c := by
  unfold windowCells
  simp only [List.mem_flatMap, List.mem_map]
  constructor
  · rintro ⟨i, hi, j, hj, rfl⟩
    exact ⟨hi, hj⟩
  · rintro ⟨h1, h2⟩
    exact ⟨p.1, h1, p.2, h2, rfl⟩

theorem length_window_le (r : Nat) : (window r).length ≤ 3 := by
  unfold window SIZE
  rw [List.length_range']
  omega

theorem length_windowCells_le (r c : Nat) : (windowCells r c).length ≤ 9 := by
  unfold windowCells
  rw [List.length_flatMap]
  have h : ∀ l : List Nat, (l.map (fun i => ((window c).map (fun j => (i, j))).length)).sum
      ≤ 3 * l.length := by
    intro l
    induction l with
    | nil => simp
    | cons a l ih =>
      simp only [List.map_cons, List.sum_cons, List.length_map, List.length_cons] at ih ⊢
      have := length_window_le c
      omega
  have h1 := h (window r)
  have h2 := length_window_le r
  simp only [Function.comp_def]
  omega

theorem push_row (b : Board) (i : Nat) (l : List Nat) (q : List (Nat × Nat))
    (h : ∀ j ∈ l, ∃ x, b.cell? i j = some x) :
    l.foldlM (fun q j =>
      match b.cell? i j with
      | none => (Except.error Err.typeError : Except Err (List (Nat × Nat)))
      | some x => Except.ok (if !x.revealed then q ++ [(i, j)] else q)) q
      = Except.ok (q ++ (l.map (fun j => (i, j))).filter (hiddenAt b)) := by
  induction l generalizing q with
  | nil => simp [pure, Except.pure]
  | cons j l ih =>
    obtain ⟨x, hx⟩ := h j (List.mem_cons_self _ _)
    rw [List.foldlM_cons, hx]
    simp only [bind, Except.bind]
    rw [ih _ (fun k hk => h k (List.mem_cons_of_mem _ hk))]
    cases hr : x.revealed <;> simp [hiddenAt, hx, hr, List.filter_cons]

theorem push_rows (b : Board) (li lj : List Nat) (q : List (Nat × Nat))
    (h : ∀ i ∈ li, ∀ j ∈ lj, ∃ x, b.cell? i j = some x) :
    li.foldlM (fun q i =>
      lj.foldlM (fun q j =>
        match b.cell? i j with
        | none => (Except.error Err.typeError : Except Err (List (Nat × Nat)))
        | some x => Except.ok (if !x.revealed then q ++ [(i, j)] else q)) q) q
      = Except.ok (q ++ (li.flatMap (fun i => lj.map (fun j => (i, j)))).filter (hiddenAt b)) := by
  induction li generalizing q with
  | nil => simp [pure, Except.pure]
  | cons i li ih =>
    rw [List.foldlM_cons, push_row b i lj q (h i (List.mem_cons_self _ _))]
    simp only [bind, Except.bind]
    rw [ih _ (fun k hk => h k (List.mem_cons_of_mem _ hk))]
    simp [List.filter_append]

theorem pushUnrevealed_eq {b : Board} (h : b.WF) (r c : Nat) (q : List (Nat × Nat)) :
    pushUnrevealed b r c q = Except.ok (q ++ pending b r c) := by
  unfold pushUnrevealed pending windowCells
  exact push_rows b (window r) (window c) q
    (fun i hi j hj => cell?_some_of_lt h (lt_of_mem_window hi) (lt_of_mem_window hj))

theorem mem_merge {stack : Bool} {q pushed : List (Nat × Nat)} {p : Nat × Nat} :
    p ∈ merge stack q pushed ↔ p ∈ q ∨ p ∈ pushed := by
  unfold merge
  cases stack <;> simp [or_comm]

theorem length_merge (stack : Bool) (q pushed : List (Nat × Nat)) :
    (merge stack q pushed).length = q.length + pushed.length := by
  unfold merge
  cases stack <;> simp [Nat.add_comm]

/-- The loop of the source is the queue instance of `sweep`, without the record. -/
theorem revealLoop_of_sweep (fuel : Nat) : ∀ (b : Board) (q marks : List (Nat × Nat))
    (t : Board) (marks2 : List (Nat × Nat)), b.WF →
    sweep false fuel b q marks = some (t, marks2) → revealLoop fuel b q = Except.ok t := by
  induction fuel with
  | zero =>
    intro b q marks t marks2 _ h
    cases q with
    | nil =>
      simp only [sweep, Option.some.injEq, Prod.mk.injEq] at h
      rw [revealLoop, h.1]
    | cons p q => simp [sweep] at h
  | succ fuel ih =>
    intro b q marks t marks2 hwf h
    cases q with
    | nil =>
      simp only [sweep, Option.some.injEq, Prod.mk.injEq] at h
      rw [revealLoop, h.1]
    | cons p q =>
      obtain ⟨r, c⟩ := p
      rw [sweep] at h
      rw [revealLoop]
      cases hx : b.cell? r c with
      | none => simp [hx] at h
      | some x =>
        simp only [hx] at h ⊢
        by_cases hr : x.revealed = true
        · simp only [hr, Bool.not_true, Bool.false_eq_true, if_false] at h ⊢
          exact ih _ _ _ _ _ hwf h
        · have hr : x.revealed = false := by simpa using hr
          simp only [hr, Bool.not_false, if_true] at h ⊢
          have hwf1 := WF_update hwf r c setRevealed
          by_cases hv : x.value = Value.num 0
          · simp only [hv, if_true] at h ⊢
            rw [pushUnrevealed_eq hwf1]
            exact ih _ _ _ _ _ hwf1 h
          · simp only [hv, if_false] at h ⊢
            exact ih _ _ _ _ _ hwf1 h

theorem sweep_fuel_mono (stack : Bool) (fuel : Nat) : ∀ (b : Board) (q marks : List (Nat × Nat))
    (res : Board × List (Nat × Nat)) (k : Nat),
    sweep stack fuel b q marks = some res → sweep stack (fuel + k) b q marks = some res := by
  induction fuel with
  | zero =>
    intro b q marks res k h
    cases q with
    | nil =>
      cases k <;> simpa [sweep] using h
    | cons p q => simp [sweep] at h
  | succ fuel ih =>
    intro b q marks res k h
    cases q with
    | nil => simpa [sweep] using h
    | cons p q =>
      obtain ⟨r, c⟩ := p
      have e : fuel + 1 + k = (fuel + k) + 1 := by omega
      rw [e, sweep]
      rw [sweep] at h
      cases hx : b.cell? r c with
      | none => simp [hx] at h
      | some x =>
        simp only [hx] at h ⊢
        split
        · split
          · rename_i h1 h2
            simp only [h1, h2, if_true] at h
            exact ih _ _ _ _ _ h
          · rename_i h1 h2
            simp only [h1, h2, if_true, if_false] at h
            exact ih _ _ _ _ _ h
        · rename_i h1
          simp only [h1, if_false] at h
          exact ih _ _ _ _ _ h

theorem flood_hidden {b0 : Board} {start p : Nat × Nat} (hstart : hiddenAt b0 start = true)
    (h : Flood b0 start p) : hiddenAt b0 p = true := by
  cases h with
  | start => exact hstart
  | spread p1 _ _ _ _ hh => exact hh

theorem cell_of_hiddenAt {b : Board} {p : Nat × Nat} (h : hiddenAt b p = true) :
    ∃ x, b.cell? p.1 p.2 = some x ∧ x.revealed = false := by
  unfold hiddenAt at h
  cases hx : b.cell? p.1 p.2 with
  | none => simp [hx] at h
  | some x => exact ⟨x, rfl, by simpa [hx] using h⟩

theorem mem_gridCells_of_hiddenAt {b : Board} (hwf : b.WF) {p : Nat × Nat}
    (h : hiddenAt b p = true) : p ∈ gridCells := by
  obtain ⟨x, hx, _⟩ := cell_of_hiddenAt h
  exact mem_gridCells.2 (lt_of_cell?_some hwf hx)

theorem gridCells_length : gridCells.length = SIZE * SIZE := by decide

theorem hiddenAt_of_frame {b0 b : Board} {marks : List (Nat × Nat)}
    (hf : ∀ i j, b.cell? i j =
      (b0.cell? i j).map (fun x => if (i, j) ∈ marks then setRevealed x else x))
    (p : Nat × Nat) : hiddenAt b p = (hiddenAt b0 p && decide (p ∉ marks)) := by
  unfold hiddenAt
  rw [hf]
  cases b0.cell? p.1 p.2 with
  | none => rfl
  | some x =>
    by_cases hm : p ∈ marks
    · have hm2 : (p.1, p.2) ∈ marks := hm
      simp [hm, hm2, setRevealed]
    · have hm2 : (p.1, p.2) ∉ marks := hm
      simp [hm, hm2]

theorem pending_length_le {b : Board} {r c : Nat} (hr : r < SIZE) (hc : c < SIZE)
    (h : hiddenAt b (r, c) = false) : (pending b r c).length ≤ 8 := by
  have hmem : (r, c) ∈ windowCells r c :=
    mem_windowCells.2 ⟨mem_window.2 ⟨by omega, by omega, hr⟩, mem_window.2 ⟨by omega, by omega, hc⟩⟩
  have hlt : (pending b r c).length < (windowCells r c).length := by
    unfold pending
    rw [List.length_filter_lt_length_iff_exists]
    exact ⟨(r, c), hmem, by simp [h]⟩
  have := length_windowCells_le r c
  omega

theorem mem_pending_iff {b : Board} {r c : Nat} {p : Nat × Nat}
    (hself : hiddenAt b (r, c) = false) :
    p ∈ pending b r c ↔ isNeighbour r c p.1 p.2 = true ∧ hiddenAt b p = true ∧ p.1 < SIZE ∧ p.2 < SIZE := by
  unfold pending
  rw [List.mem_filter, mem_windowCells, mem_window, mem_window]
  unfold isNeighbour
  simp only [decide_eq_true_eq]
  constructor
  · rintro ⟨⟨⟨h1, h2, h3⟩, h4, h5, h6⟩, hh⟩
    refine ⟨⟨?_, h2, h1, h5, h4⟩, hh, h3, h6⟩
    by_contra hcon
    have : p = (r, c) := by
      rcases p with ⟨i, j⟩
      simp only [Prod.mk.injEq]
      simp only at hcon
      omega
    rw [this, hself] at hh
    cases hh
  · rintro ⟨⟨_, h2, h1, h5, h4⟩, hh, h3, h6⟩
    exact ⟨⟨⟨h1, h2, h3⟩, h4, h5, h6⟩, hh⟩

/-- The invariant after a pass that finds the cell taken off the worklist revealed. -/
theorem floodInv_skip {b0 b : Board} {start p : Nat × Nat} {q marks : List (Nat × Nat)}
    (h : FloodInv b0 start b (p :: q) marks) (hp : p ∈ marks) :
    FloodInv b0 start b q marks where
  wf := h.wf
  frame := h.frame
  marks_nodup := h.marks_nodup
  marks_flood := h.marks_flood
  queue_flood := fun p2 hp2 => h.queue_flood p2 (List.mem_cons_of_mem _ hp2)
  start_seen := by
    rcases h.start_seen with h1 | h1
    · exact Or.inl h1
    · rcases List.mem_cons.1 h1 with h2 | h2
      · exact Or.inl (h2 ▸ hp)
      · exact Or.inr h2
  closed := by
    intro p1 hp1 hz p2 hn hh
    rcases h.closed p1 hp1 hz p2 hn hh with h1 | h1
    · exact Or.inl h1
    · rcases List.mem_cons.1 h1 with h2 | h2
      · exact Or.inl (h2 ▸ hp)
      · exact Or.inr h2

theorem frame_mark {b0 b : Board} {r c : Nat} {marks : List (Nat × Nat)}
    (hf : ∀ i j, b.cell? i j =
      (b0.cell? i j).map (fun x => if (i, j) ∈ marks then setRevealed x else x))
    (hp : (r, c) ∉ marks) (i j : Nat) :
    (b.update r c setRevealed).cell? i j =
      (b0.cell? i j).map (fun x => if (i, j) ∈ marks ++ [(r, c)] then setRevealed x else x) := by
  rw [cell?_update]
  by_cases hij : i = r ∧ j = c
  · obtain ⟨rfl, rfl⟩ := hij
    rw [if_pos ⟨rfl, rfl⟩, hf]
    cases b0.cell? i j with
    | none => rfl
    | some x => simp [hp]
  · rw [if_neg hij, hf]
    have e : (i, j) ∈ marks ++ [(r, c)] ↔ (i, j) ∈ marks := by
      simp only [List.mem_append, List.mem_singleton, Prod.mk.injEq]
      exact ⟨fun h1 => h1.elim id (fun h2 => absurd h2 hij), Or.inl⟩
    simp only [e]

/-- The invariant after a pass that marks the cell taken off the worklist. -/
theorem floodInv_mark {b0 b : Board} {start : Nat × Nat} {r c : Nat}
    {q q1 marks : List (Nat × Nat)}
    (h : FloodInv b0 start b ((r, c) :: q) marks) (hp : (r, c) ∉ marks)
    (hsub : ∀ p ∈ q, p ∈ q1) (hq1 : ∀ p ∈ q1, Flood b0 start p)
    (hclosed : isZeroAt b0 (r, c) = true → ∀ p2 : Nat × Nat,
      isNeighbour r c p2.1 p2.2 = true → hiddenAt b0 p2 = true →
      p2 ∈ marks ++ [(r, c)] ∨ p2 ∈ q1) :
    FloodInv b0 start (b.update r c setRevealed) q1 (marks ++ [(r, c)]) where
  wf := WF_update h.wf r c setRevealed
  frame := frame_mark h.frame hp
  marks_nodup := by
    rw [List.nodup_append]
    refine ⟨h.marks_nodup, List.nodup_singleton _, ?_⟩
    intro a ha hb
    rw [List.mem_singleton] at hb
    exact hp (hb ▸ ha)
  marks_flood := by
    intro p hpm
    rcases List.mem_append.1 hpm with h1 | h1
    · exact h.marks_flood p h1
    · rw [List.mem_singleton] at h1
      exact h1 ▸ h.queue_flood (r, c) (List.mem_cons_self _ _)
  queue_flood := hq1
  start_seen := by
    rcases h.start_seen with h1 | h1
    · exact Or.inl (List.mem_append_left _ h1)
    · rcases List.mem_cons.1 h1 with h2 | h2
      · exact Or.inl (List.mem_append_right _ (List.mem_singleton.2 h2))
      · exact Or.inr (hsub _ h2)
  closed := by
    intro p1 hp1 hz p2 hn hh
    rcases List.mem_append.1 hp1 with h1 | h1
    · rcases h.closed p1 h1 hz p2 hn hh with h2 | h2
      · exact Or.inl (List.mem_append_left _ h2)
      · rcases List.mem_cons.1 h2 with h3 | h3
        · exact Or.inl (List.mem_append_right _ (List.mem_singleton.2 h3))
        · exact Or.inr (hsub _ h3)
    · rw [List.mem_singleton] at h1
      subst h1
      exact hclosed hz p2 hn hh

theorem marks_length_le {b0 : Board} (hwf0 : b0.WF) {start : Nat × Nat}
    (hstart : hiddenAt b0 start = true) {marks : List (Nat × Nat)} (hn : marks.Nodup)
    (hf : ∀ p ∈ marks, Flood b0 start p) : marks.length ≤ SIZE * SIZE := by
  rw [← gridCells_length]
  apply List.Subperm.length_le
  apply List.subperm_of_subset hn
  intro p hp
  exact mem_gridCells_of_hiddenAt hwf0 (flood_hidden hstart (hf p hp))

/-- The worklist loop, for either discipline, runs to the end within its fuel and keeps
the invariant. -/
theorem sweep_inv (stack : Bool) {b0 : Board} {start : Nat × Nat} (hwf0 : b0.WF)
    (hstart : hiddenAt b0 start = true) (fuel : Nat) :
    ∀ (b : Board) (q marks : List (Nat × Nat)), FloodInv b0 start b q marks →
      8 * (SIZE * SIZE - marks.length) + q.length < fuel →
      ∃ t marks2, sweep stack fuel b q marks = some (t, marks2) ∧
        FloodInv b0 start t [] marks2 := by
  induction fuel with
  | zero => intro b q marks _ hm; omega
  | succ fuel ih =>
    intro b q marks hinv hm
    cases q with
    | nil => exact ⟨b, marks, by rw [sweep], hinv⟩
    | cons p q =>
      obtain ⟨r, c⟩ := p
      have hfl : Flood b0 start (r, c) := hinv.queue_flood _ (List.mem_cons_self _ _)
      have hh0 : hiddenAt b0 (r, c) = true := flood_hidden hstart hfl
      obtain ⟨x0, hx0, hx0r⟩ := cell_of_hiddenAt hh0
      obtain ⟨hr, hc⟩ := lt_of_cell?_some hwf0 hx0
      have hbx := hinv.frame r c
      rw [hx0] at hbx
      simp only [Option.map_some'] at hbx
      simp only [List.length_cons] at hm
      rw [sweep, hbx]
      by_cases hp : (r, c) ∈ marks
      · simp only [hp, if_true, setRevealed, Bool.not_true, Bool.false_eq_true, if_false]
        exact ih b q marks (floodInv_skip hinv hp) (by omega)
      · simp only [hp, if_false, hx0r, Bool.not_false, if_true]
        have hlen : (marks ++ [(r, c)]).length ≤ SIZE * SIZE := by
          apply marks_length_le hwf0 hstart
          · rw [List.nodup_append]
            refine ⟨hinv.marks_nodup, List.nodup_singleton _, ?_⟩
            intro a ha hb
            rw [List.mem_singleton] at hb
            exact hp (hb ▸ ha)
          · intro p2 hp2
            rcases List.mem_append.1 hp2 with h1 | h1
            · exact hinv.marks_flood p2 h1
            · rw [List.mem_singleton] at h1
              exact h1 ▸ hfl
        simp only [List.length_append, List.length_singleton] at hlen
        by_cases hv : x0.value = Value.num 0
        · simp only [hv, if_true]
          have hfr := frame_mark hinv.frame hp
          have hself : hiddenAt (b.update r c setRevealed) (r, c) = false := by
            rw [hiddenAt_of_frame hfr]
            simp
          have hz0 : isZeroAt b0 (r, c) = true := by
            unfold isZeroAt
            simp [hx0, hv]
          apply ih
          · apply floodInv_mark hinv hp (fun p2 hp2 => mem_merge.2 (Or.inl hp2))
            · intro p2 hp2
              rcases mem_merge.1 hp2 with h1 | h1
              · exact hinv.queue_flood p2 (List.mem_cons_of_mem _ h1)
              · obtain ⟨hn, hh, _, _⟩ := (mem_pending_iff hself).1 h1
                rw [hiddenAt_of_frame hfr, Bool.and_eq_true] at hh
                exact Flood.spread (r, c) p2 hfl hz0 hn hh.1
            · intro _ p2 hn hh
              by_cases hp2 : p2 ∈ marks ++ [(r, c)]
              · exact Or.inl hp2
              · right
                apply mem_merge.2
                right
                obtain ⟨x2, hx2, _⟩ := cell_of_hiddenAt hh
                obtain ⟨h1, h2⟩ := lt_of_cell?_some hwf0 hx2
                refine (mem_pending_iff hself).2 ⟨hn, ?_, h1, h2⟩
                rw [hiddenAt_of_frame hfr, hh]
                simp [hp2]
          · have hpl : (pending (b.update r c setRevealed) r c).length ≤ 8 :=
              pending_length_le hr hc hself
            simp only [List.length_append, List.length_singleton, length_merge]
            omega
        · simp only [hv, if_false]
          apply ih
          · apply floodInv_mark hinv hp (fun _ h => h)
              (fun p2 hp2 => hinv.queue_flood p2 (List.mem_cons_of_mem _ hp2))
            intro hz
            exfalso
            unfold isZeroAt at hz
            simp [hx0, hv] at hz
          · simp only [List.length_append, List.length_singleton]
            omega

theorem floodInv_init (b : Board) (hwf : b.WF) (start : Nat × Nat) :
    FloodInv b start b [start] [] where
  wf := hwf
  frame := by
    intro i j
    cases b.cell? i j <;> simp
  marks_nodup := List.nodup_nil
  marks_flood := by simp
  queue_flood := by
    intro p hp
    rw [List.mem_singleton] at hp
    exact hp ▸ Flood.start
  start_seen := Or.inr (List.mem_singleton.2 rfl)
  closed := by simp

/-- Started on an unrevealed cell, the worklist loop runs to the end within `revealFuel`
passes, for either discipline of the worklist. -/
theorem sweep_spec (stack : Bool) {b : Board} {start : Nat × Nat} (hwf : b.WF)
    (hstart : hiddenAt b start = true) :
    ∃ t marks, sweep stack revealFuel b [start] [] = some (t, marks) ∧
      FloodInv b start t [] marks :=
  sweep_inv stack hwf hstart revealFuel b [start] [] (floodInv_init b hwf start)
    (by simp [revealFuel, SIZE])

/-- At the end of the loop the marked cells are the flood region. -/
theorem mem_marks_iff {b t : Board} {start : Nat × Nat} {marks : List (Nat × Nat)}
    (h : FloodInv b start t [] marks) (p : Nat × Nat) : p ∈ marks ↔ Flood b start p := by
  constructor
  · exact h.marks_flood p
  · intro hf
    induction hf with
    | start =>
      rcases h.start_seen with h1 | h1
      · exact h1
      · cases h1
    | spread p1 p2 _ hz hn hh ih =>
      rcases h.closed p1 ih hz p2 hn hh with h1 | h1
      · exact h1
      · cases h1

/-- At the end of the loop the revealed cells are those revealed before and the flood
region. -/
theorem revealedAt_iff {b t : Board} {start : Nat × Nat} {marks : List (Nat × Nat)}
    (hstart : hiddenAt b start = true) (h : FloodInv b start t [] marks) (p : Nat × Nat) :
    revealedAt t p = true ↔ (revealedAt b p = true ∨ Flood b start p) := by
  rw [← mem_marks_iff h]
  have hf := h.frame p.1 p.2
  unfold revealedAt
  rw [hf]
  cases hx : b.cell? p.1 p.2 with
  | none =>
    simp only [Option.map_none', Bool.false_eq_true, false_or, false_iff]
    intro hm
    obtain ⟨x, hx2, _⟩ := cell_of_hiddenAt (flood_hidden hstart (h.marks_flood p hm))
    rw [hx] at hx2
    cases hx2
  | some x =>
    have e : ((p.1, p.2) ∈ marks) = (p ∈ marks) := rfl
    simp only [Option.map_some', e]
    by_cases hm : p ∈ marks
    · simp [hm, setRevealed]
    · simp [hm]

/-- The flood region is contained in every set that contains `start` and is closed under
the spreading rule. -/
theorem flood_least (b : Board) (start : Nat × Nat) (S : Nat × Nat → Prop) (h0 : S start)
    (hS : ∀ p q : Nat × Nat, S p → isZeroAt b p = true →
      isNeighbour p.1 p.2 q.1 q.2 = true → hiddenAt b q = true → S q)
    (p : Nat × Nat) (h : Flood b start p) : S p := by
  induction h with
  | start => exact h0
  | spread p1 p2 _ hz hn hh ih => exact hS p1 p2 ih hz hn hh

/-- On a board with correct counts, a flood region that starts on a cell of value 0
holds no mine. -/
theorem flood_not_mine {b : Board} (hwf : b.WF)
    (hcounts : ∀ r c x, b.cell? r c = some x → x.value ≠ Value.mine →
      x.value = Value.num (adjacentMines b r c))
    {start : Nat × Nat} (hz : isZeroAt b start = true) {p : Nat × Nat}
    (h : Flood b start p) : isMineAt b p.1 p.2 = false := by
  have zero_not_mine : ∀ q : Nat × Nat, isZeroAt b q = true → isMineAt b q.1 q.2 = false := by
    intro q hq
    unfold isZeroAt at hq
    unfold isMineAt
    cases hx : b.cell? q.1 q.2 with
    | none => rfl
    | some x =>
      simp only [hx, decide_eq_true_eq] at hq
      simp [hq]
  cases h with
  | start => exact zero_not_mine _ hz
  | spread p1 _ _ hz1 hn hh =>
    unfold isZeroAt at hz1
    cases hx : b.cell? p1.1 p1.2 with
    | none => simp [hx] at hz1
    | some x =>
      simp only [hx, decide_eq_true_eq] at hz1
      have hc := hcounts p1.1 p1.2 x hx (by rw [hz1]; exact fun h => by cases h)
      rw [hz1] at hc
      have hadj : adjacentMines b p1.1 p1.2 = 0 := by
        injection hc with hc
        exact hc.symm
      unfold adjacentMines at hadj
      rw [List.length_eq_zero, List.filter_eq_nil_iff] at hadj
      have := hadj p (mem_gridCells_of_hiddenAt hwf hh)
      simpa [hn] using this

/-- C14: for every board and every start cell `(row, col)` that is unrevealed when
`revealAllCells(row, col)` is called, the call returns, and the cells revealed afterwards
are exactly the cells revealed before together with the flood region of the start cell
(the least set `Flood` that contains the start cell and, for each of its cells of value 0,
every neighbour on the grid that was unrevealed before the call).  The same holds when the
worklist is processed as a stack instead of a queue: the revealed set does not depend on
the order. -/
theorem revealAllCells_reveals_flood_region (b : Board) (row col : Nat) (hwf : b.WF)
    (hh : hiddenAt b (row, col) = true) :
    ∃ t, revealAllCells b row col = Except.ok t ∧
      (∀ p, revealedAt t p = true ↔ (revealedAt b p = true ∨ Flood b (row, col) p)) ∧
      ∀ stack : Bool, ∃ t2 marks,
        sweep stack revealFuel b [(row, col)] [] = some (t2, marks) ∧
        (stack = false → t2 = t) ∧
        ∀ p, revealedAt t2 p = true ↔ (revealedAt b p = true ∨ Flood b (row, col) p) := by
  obtain ⟨t, marks, hs, hinv⟩ := sweep_spec false hwf hh
  have ht : revealAllCells b row col = Except.ok t := revealLoop_of_sweep _ _ _ _ _ _ hwf hs
  refine ⟨t, ht, revealedAt_iff hh hinv, ?_⟩
  intro stack
  cases stack with
  | false => exact ⟨t, marks, hs, fun _ => rfl, revealedAt_iff hh hinv⟩
  | true =>
    obtain ⟨t2, marks2, hs2, hinv2⟩ := sweep_spec true hwf hh
    exact ⟨t2, marks2, hs2, fun h => Bool.noConfusion h, revealedAt_iff hh hinv2⟩

/-- Witness of C14: `revealAllCells(5, 5)` on the board of `startState`. -/
theorem revealAllCells_reveals_flood_region_witness :
    hiddenAt startState.board (5, 5) = true ∧
    ∃ t, revealAllCells startState.board 5 5 = Except.ok t ∧
      (∀ p, revealedAt t p = true ↔
        (revealedAt startState.board p = true ∨ Flood startState.board (5, 5) p)) ∧
      ∀ stack : Bool, ∃ t2 marks,
        sweep stack revealFuel startState.board [(5, 5)] [] = some (t2, marks) ∧
        (stack = false → t2 = t) ∧
        ∀ p, revealedAt t2 p = true ↔
          (revealedAt startState.board p = true ∨ Flood startState.board (5, 5) p) :=
  ⟨by decide!, revealAllCells_reveals_flood_region startState.board 5 5 (by decide!) (by decide!)⟩

/-- C15: for every board (any values, any revealed pattern) and every start cell on the
grid, the worklist loop of `revealAllCells` terminates: it returns within `revealFuel`
passes, and with any larger number of passes allowed it returns the same board.  The
record `marks` of the writes `revealed = true` of the call has no cell twice: each cell is
marked revealed at most once, and every marked cell was unrevealed before the call. -/
theorem revealAllCells_terminates (b : Board) (row col : Nat) (hwf : b.WF)
    (hr : row < SIZE) (hc : col < SIZE) :
    ∃ t marks, sweep false revealFuel b [(row, col)] [] = some (t, marks) ∧
      revealAllCells b row col = Except.ok t ∧
      (∀ fuel, revealFuel ≤ fuel → revealLoop fuel b [(row, col)] = Except.ok t) ∧
      marks.Nodup ∧ ∀ p ∈ marks, hiddenAt b p = true ∧ revealedAt t p = true := by
  have key : ∃ t marks, sweep false revealFuel b [(row, col)] [] = some (t, marks) ∧
      marks.Nodup ∧ ∀ p ∈ marks, hiddenAt b p = true ∧ revealedAt t p = true := by
    obtain ⟨x, hx⟩ := cell?_some_of_lt hwf hr hc
    by_cases hrev : x.revealed = true
    · refine ⟨b, [], ?_, List.nodup_nil, by simp⟩
      show sweep false (8 * (SIZE * SIZE) + 1 + 1) b [(row, col)] [] = _
      rw [sweep]
      simp [hx, hrev, sweep]
    · have hh : hiddenAt b (row, col) = true := by simp [hiddenAt, hx, hrev]
      obtain ⟨t, marks, hs, hinv⟩ := sweep_spec false hwf hh
      refine ⟨t, marks, hs, hinv.marks_nodup, fun p hp => ?_⟩
      have hfl := hinv.marks_flood p hp
      exact ⟨flood_hidden hh hfl, (revealedAt_iff hh hinv p).2 (Or.inr hfl)⟩
  obtain ⟨t, marks, hs, hn, hm⟩ := key
  refine ⟨t, marks, hs, revealLoop_of_sweep _ _ _ _ _ _ hwf hs, ?_, hn, hm⟩
  intro fuel hfuel
  have h2 := sweep_fuel_mono false revealFuel b [(row, col)] [] (t, marks) (fuel - revealFuel) hs
  rw [Nat.add_sub_cancel' hfuel] at h2
  exact revealLoop_of_sweep _ _ _ _ _ _ hwf h2

/-- Witness of C15: `revealAllCells(5, 5)` on the board of `startState`. -/
theorem revealAllCells_terminates_witness :
    ∃ t marks, sweep false revealFuel startState.board [(5, 5)] [] = some (t, marks) ∧
      revealAllCells startState.board 5 5 = Except.ok t ∧
      (∀ fuel, revealFuel ≤ fuel →
        revealLoop fuel startState.board [(5, 5)] = Except.ok t) ∧
      marks.Nodup ∧ ∀ p ∈ marks, hiddenAt startState.board p = true ∧ revealedAt t p = true :=
  revealAllCells_terminates startState.board 5 5 (by decide!) (by decide) (by decide)

/-- C18: on every board whose non-mine cells carry correct adjacency counts,
`revealAllCells` started from an unrevealed cell of value 0 returns and marks no cell whose
value is `'mine'`: every mine cell is on the board afterwards as it was before, so the
flood reveal exposes no mine. -/
theorem flood_exposes_no_mine (b : Board) (row col : Nat) (hwf : b.WF)
    (hcounts : ∀ r c x, b.cell? r c = some x → x.value ≠ Value.mine →
      x.value = Value.num (adjacentMines b r c))
    (hh : hiddenAt b (row, col) = true) (hz : isZeroAt b (row, col) = true) :
    ∃ t marks, sweep false revealFuel b [(row, col)] [] = some (t, marks) ∧
      revealAllCells b row col = Except.ok t ∧
      (∀ p ∈ marks, isMineAt b p.1 p.2 = false) ∧
      ∀ i j x, b.cell? i j = some x → x.value = Value.mine → t.cell? i j = some x := by
  obtain ⟨t, marks, hs, hinv⟩ := sweep_spec false hwf hh
  have hnm : ∀ p ∈ marks, isMineAt b p.1 p.2 = false :=
    fun p hp => flood_not_mine hwf hcounts hz (hinv.marks_flood p hp)
  refine ⟨t, marks, hs, revealLoop_of_sweep _ _ _ _ _ _ hwf hs, hnm, ?_⟩
  intro i j x hx hv
  rw [hinv.frame, hx]
  have hnot : (i, j) ∉ marks := by
    intro hmem
    have := hnm (i, j) hmem
    simp [isMineAt, hx, hv] at this
  simp [hnot]

/-- Witness of C18: `revealAllCells(5, 5)` on the board of `startState`, where `(5, 5)`
is unrevealed and has value 0. -/
theorem flood_exposes_no_mine_witness :
    hiddenAt startState.board (5, 5) = true ∧ isZeroAt startState.board (5, 5) = true ∧
    ∃ t marks, sweep false revealFuel startState.board [(5, 5)] [] = some (t, marks) ∧
      revealAllCells startState.board 5 5 = Except.ok t ∧
      (∀ p ∈ marks, isMineAt startState.board p.1 p.2 = false) ∧
      ∀ i j x, startState.board.cell? i j = some x → x.value = Value.mine →
        t.cell? i j = some x :=
  ⟨by decide!, by decide!,
    flood_exposes_no_mine startState.board 5 5 (by decide!)
      (by
        have h : ∀ p ∈ gridCells, ∀ x, startState.board.cell? p.1 p.2 = some x →
            x.value ≠ Value.mine →
            x.value = Value.num (adjacentMines startState.board p.1 p.2) := by decide!
        intro r c x hx hv
        obtain ⟨hr, hc⟩ := lt_of_cell?_some (reachable_inv startState_reachable).1 hx
        exact h (r, c) (mem_gridCells.2 ⟨hr, hc⟩) x hx hv)
      (by decide!) (by decide!)⟩

/-! ## `shuffle` is a bijection from draw sequences to permutations -/

theorem swap_length {α : Type} (a : List α) (i j : Nat) : (swap a i j).length = a.length := by
  unfold swap
  split <;> simp

theorem swap_getElem?_gt {α : Type} (a : List α) {i j k : Nat} (hi : i < k) (hj : j < k) :
    (swap a i j)[k]? = a[k]? := by
  unfold swap
  split
  · rw [List.getElem?_set_ne (by omega), List.getElem?_set_ne (by omega)]
  · rfl

theorem swap_getElem?_top {α : Type} (a : List α) {i j : Nat} (hi : i < a.length)
    (hj : j ≤ i) : (swap a i j)[i]? = a[j]? := by
  have hj2 : j < a.length := by omega
  unfold swap
  rw [List.getElem?_eq_getElem hi, List.getElem?_eq_getElem hj2]
  simp only
  by_cases hij : j = i
  · subst hij
    rw [List.getElem?_set_self (by simpa using hj2)]
  · rw [List.getElem?_set_ne hij, List.getElem?_set_self hi]

theorem shuffleLoop_length {α : Type} (d : Draws) (i : Nat) (a : List α) :
    (shuffleLoop d i a).length = a.length := by
  induction i generalizing a with
  | zero => rfl
  | succ i ih => rw [shuffleLoop, ih, swap_length]

theorem shuffleLoop_getElem?_gt {α : Type} (d : Draws) (i : Nat) (a : List α) {k : Nat}
    (hk : i < k) : (shuffleLoop d i a)[k]? = a[k]? := by
  induction i generalizing a with
  | zero => rfl
  | succ i ih =>
    rw [shuffleLoop, ih _ (by omega)]
    exact swap_getElem?_gt a hk (by have := (d (i + 1)).isLt; omega)

theorem shuffleLoop_top {α : Type} (d : Draws) (i : Nat) (a : List α)
    (hi : i + 1 < a.length) : (shuffleLoop d (i + 1) a)[i + 1]? = a[(d (i + 1)).val]? := by
  rw [shuffleLoop, shuffleLoop_getElem?_gt d i _ (Nat.lt_succ_self i)]
  exact swap_getElem?_top a hi (by have := (d (i + 1)).isLt; omega)

/-- On a list without duplicates the output of the loop determines every draw. -/
theorem shuffleLoop_inj {α : Type} (d d2 : Draws) (i : Nat) : ∀ (a : List α), i < a.length →
    a.Nodup → shuffleLoop d i a = shuffleLoop d2 i a → ∀ k, 0 < k → k ≤ i → d k = d2 k := by
  induction i with
  | zero => intro a _ _ _ k h1 h2; omega
  | succ i ih =>
    intro a hi hn h k h1 h2
    have htop := congrArg (fun l => l[i + 1]?) h
    simp only [shuffleLoop_top d i a hi, shuffleLoop_top d2 i a hi] at htop
    have hj : (d (i + 1)).val < a.length := by have := (d (i + 1)).isLt; omega
    have hj2 : (d2 (i + 1)).val < a.length := by have := (d2 (i + 1)).isLt; omega
    rw [List.getElem?_eq_getElem hj, List.getElem?_eq_getElem hj2, Option.some.injEq,
      hn.getElem_inj_iff] at htop
    have hd : d (i + 1) = d2 (i + 1) := Fin.ext htop
    by_cases hk : k = i + 1
    · rw [hk, hd]
    · rw [shuffleLoop, shuffleLoop, hd] at h
      exact ih (swap a (i + 1) (d2 (i + 1)).val) (by rw [swap_length]; omega)
        ((swap_perm a _ _).nodup_iff.2 hn) h k h1 (by omega)

theorem toDraws_apply {n : Nat} (f : DrawSeq n) (i : Fin n) :
    (f.toDraws (i.val + 1)).val = (f i).val := by
  unfold DrawSeq.toDraws
  have h : 0 < i.val + 1 ∧ i.val + 1 ≤ n := ⟨by omega, i.isLt⟩
  rw [dif_pos h]
  rfl

theorem shuffle_injective {α : Type} {n : Nat} (a : List α) (ha : a.length = n + 1)
    (hn : a.Nodup) : Function.Injective (fun f : DrawSeq n => shuffle f.toDraws a) := by
  intro f g h
  simp only [shuffle, ha, Nat.add_sub_cancel] at h
  have key := shuffleLoop_inj f.toDraws g.toDraws n a (by omega) hn h
  funext i
  apply Fin.ext
  rw [← toDraws_apply f i, ← toDraws_apply g i, key (i.val + 1) (by omega) i.isLt]

theorem card_drawSeq (n : Nat) : Fintype.card (DrawSeq n) = (n + 1).factorial := by
  rw [Fintype.card_pi]
  simp only [Fintype.card_fin]
  induction n with
  | zero => simp
  | succ n ih =>
    rw [Fin.prod_univ_castSucc]
    simp only [Fin.coe_castSucc, Fin.val_last]
    rw [ih, Nat.factorial_succ (n + 1)]
    ring

theorem shuffle_surjective {n : Nat} (a : List Nat) (ha : a.length = n + 1) (hn : a.Nodup)
    (l : List Nat) (hl : l.Perm a) : ∃ f : DrawSeq n, shuffle f.toDraws a = l := by
  have hsub : Finset.univ.image (fun f : DrawSeq n => shuffle f.toDraws a)
      ⊆ a.permutations.toFinset := by
    intro m hm
    obtain ⟨f, _, rfl⟩ := Finset.mem_image.1 hm
    exact List.mem_toFinset.2 (List.mem_permutations.2 (shuffle_perm _ a))
  have hcard : a.permutations.toFinset.card
      ≤ (Finset.univ.image (fun f : DrawSeq n => shuffle f.toDraws a)).card := by
    rw [Finset.card_image_of_injective _ (shuffle_injective a ha hn), Finset.card_univ,
      card_drawSeq, List.toFinset_card_of_nodup (List.nodup_permutations a hn),
      List.length_permutations, ha]
  have heq := Finset.eq_of_subset_of_card_le hsub hcard
  have hmem : l ∈ a.permutations.toFinset := List.mem_toFinset.2 (List.mem_permutations.2 hl)
  rw [← heq] at hmem
  obtain ⟨f, _, hf⟩ := Finset.mem_image.1 hmem
  exact ⟨f, hf⟩

theorem shuffled_injective : Function.Injective shuffled :=
  shuffle_injective (List.range (SIZE * SIZE)) (by simp [SIZE]) (List.nodup_range _)

theorem shuffled_surjective (l : List Nat) (hl : l.Perm (List.range (SIZE * SIZE))) :
    ∃ f, shuffled f = l :=
  shuffle_surjective (List.range (SIZE * SIZE)) (by simp [SIZE]) (List.nodup_range _) l hl

/-- A relabelling of the cell indices that carries the set `S` onto the set `T`. -/
theorem exists_relabel (S T : Finset (Fin (SIZE * SIZE))) (h : S.card = T.card) :
    ∃ π : Nat → Nat, (∀ k, k < SIZE * SIZE → π k < SIZE * SIZE) ∧
      (∀ x y, x < SIZE * SIZE → y < SIZE * SIZE → π x = π y → x = y) ∧
      (∀ k, k < SIZE * SIZE → (π k ∈ T.image Fin.val ↔ k ∈ S.image Fin.val)) := by
  classical
  let σ : Equiv.Perm (Fin (SIZE * SIZE)) := (Finset.equivOfCardEq h).extendSubtype
  refine ⟨fun k => if hk : k < SIZE * SIZE then (σ ⟨k, hk⟩).val else k, ?_, ?_, ?_⟩
  · intro k hk
    simp only [dif_pos hk]
    exact (σ ⟨k, hk⟩).isLt
  · intro x y hx hy hxy
    simp only [dif_pos hx, dif_pos hy] at hxy
    have := σ.injective (Fin.ext hxy)
    exact congrArg Fin.val this
  · intro k hk
    simp only [dif_pos hk]
    have e1 : (σ ⟨k, hk⟩).val ∈ T.image Fin.val ↔ σ ⟨k, hk⟩ ∈ T := by
      simp only [Finset.mem_image]
      constructor
      · rintro ⟨y, hy, hyv⟩
        rw [← Fin.ext hyv]
        exact hy
      · intro hy
        exact ⟨_, hy, rfl⟩
    have e2 : k ∈ S.image Fin.val ↔ (⟨k, hk⟩ : Fin (SIZE * SIZE)) ∈ S := by
      simp only [Finset.mem_image]
      constructor
      · rintro ⟨y, hy, hyv⟩
        have : y = ⟨k, hk⟩ := Fin.ext hyv
        rw [← this]
        exact hy
      · intro hy
        exact ⟨_, hy, rfl⟩
    rw [e1, e2]
    constructor
    · intro hT
      by_contra hS
      exact Equiv.extendSubtype_not_mem (Finset.equivOfCardEq h) _ hS hT
    · intro hS
      exact Equiv.extendSubtype_mem (Finset.equivOfCardEq h) _ hS

theorem map_injOn_lt (π : Nat → Nat) (N : Nat)
    (hinj : ∀ x y, x < N → y < N → π x = π y → x = y) :
    ∀ l m : List Nat, (∀ x ∈ l, x < N) → (∀ x ∈ m, x < N) → l.map π = m.map π → l = m := by
  intro l
  induction l with
  | nil =>
    intro m _ _ h
    cases m with
    | nil => rfl
    | cons b m => simp at h
  | cons a l ih =>
    intro m hl hm h
    cases m with
    | nil => simp at h
    | cons b m =>
      simp only [List.map_cons, List.cons.injEq] at h
      have hab := hinj a b (hl a (List.mem_cons_self _ _)) (hm b (List.mem_cons_self _ _)) h.1
      rw [hab, ih m (fun x hx => hl x (List.mem_cons_of_mem _ hx))
        (fun x hx => hm x (List.mem_cons_of_mem _ hx)) h.2]

theorem relabel_perm (π : Nat → Nat) (N : Nat) (hlt : ∀ k, k < N → π k < N)
    (hinj : ∀ x y, x < N → y < N → π x = π y → x = y) {l : List Nat}
    (hl : l.Perm (List.range N)) : (l.map π).Perm (List.range N) := by
  refine (hl.map π).trans ?_
  apply List.Subperm.perm_of_length_le
  · apply List.subperm_of_subset
    · apply List.Nodup.map_on _ (List.nodup_range N)
      intro x hx y hy hxy
      exact hinj x y (List.mem_range.1 hx) (List.mem_range.1 hy) hxy
    · intro x hx
      obtain ⟨y, hy, rfl⟩ := List.mem_map.1 hx
      exact List.mem_range.2 (hlt y (List.mem_range.1 hy))
  · simp

theorem mem_permsWithMines {S : Finset (Fin (SIZE * SIZE))} {l : List Nat} :
    l ∈ permsWithMines S ↔
      l.Perm (List.range (SIZE * SIZE)) ∧ (l.take NUM_MINES).toFinset = S.image Fin.val := by
  unfold permsWithMines
  rw [Finset.mem_filter, List.mem_toFinset, List.mem_permutations]

theorem permsWithMines_card_le (S T : Finset (Fin (SIZE * SIZE))) (h : S.card = T.card) :
    (permsWithMines S).card ≤ (permsWithMines T).card := by
  obtain ⟨π, hlt, hinj, hST⟩ := exists_relabel S T h
  apply Finset.card_le_card_of_injOn (fun l => l.map π)
  · intro l hl
    obtain ⟨hperm, hS⟩ := mem_permsWithMines.1 hl
    have hperm2 := relabel_perm π _ hlt hinj hperm
    refine mem_permsWithMines.2 ⟨hperm2, ?_⟩
    have hl_lt : ∀ y ∈ l, y < SIZE * SIZE := fun y hy => List.mem_range.1 (hperm.subset hy)
    ext x
    rw [List.mem_toFinset, ← List.map_take, List.mem_map]
    constructor
    · rintro ⟨y, hy, rfl⟩
      have hyS : y ∈ S.image Fin.val := by rw [← hS]; exact List.mem_toFinset.2 hy
      exact (hST y (hl_lt y (List.mem_of_mem_take hy))).2 hyS
    · intro hx
      have hxlt : x < SIZE * SIZE := by
        obtain ⟨z, _, rfl⟩ := Finset.mem_image.1 hx
        exact z.isLt
      have hxm : x ∈ l.map π := hperm2.symm.subset (List.mem_range.2 hxlt)
      obtain ⟨y, hy, rfl⟩ := List.mem_map.1 hxm
      have hyS : y ∈ S.image Fin.val := (hST y (hl_lt y hy)).1 hx
      rw [← hS] at hyS
      exact ⟨y, List.mem_toFinset.1 hyS, rfl⟩
  · intro l hl m hm hlm
    have hl2 := (mem_permsWithMines.1 (Finset.mem_coe.1 hl)).1
    have hm2 := (mem_permsWithMines.1 (Finset.mem_coe.1 hm)).1
    exact map_injOn_lt π _ hinj l m (fun y hy => List.mem_range.1 (hl2.subset hy))
      (fun y hy => List.mem_range.1 (hm2.subset hy)) hlm

theorem shuffled_perm (f : DrawSeq (SIZE * SIZE - 1)) :
    (shuffled f).Perm (List.range (SIZE * SIZE)) := by
  unfold shuffled
  exact shuffle_perm _ _

theorem bombIndices_eq_take (f : DrawSeq (SIZE * SIZE - 1)) :
    bombIndices f.toDraws = (shuffled f).take NUM_MINES := by
  unfold bombIndices shuffled
  rfl

/-- Counting along a bijection: the arguments whose image satisfies `q` are as many as the
images that satisfy `q`. -/
theorem card_filter_of_bij {α β : Type} [Fintype α] [DecidableEq β] (F : α → β)
    (hF : Function.Injective F) (P : Finset β) (hP : ∀ l, l ∈ P ↔ ∃ a, F a = l)
    (q : β → Prop) [DecidablePred q] :
    (Finset.univ.filter (fun a => q (F a))).card = (P.filter q).card := by
  rw [← Finset.card_image_of_injective _ hF]
  congr 1
  ext l
  simp only [Finset.mem_image, Finset.mem_filter, Finset.mem_univ, true_and, hP]
  constructor
  · rintro ⟨a, ha, rfl⟩
    exact ⟨⟨a, rfl⟩, ha⟩
  · rintro ⟨⟨a, rfl⟩, ha⟩
    exact ⟨a, ha, rfl⟩

theorem mineSetCount_eq (S : Finset (Fin (SIZE * SIZE))) :
    mineSetCount S = (permsWithMines S).card := by
  have h := card_filter_of_bij shuffled shuffled_injective
    (List.range (SIZE * SIZE)).permutations.toFinset
    (fun l => by
      rw [List.mem_toFinset, List.mem_permutations]
      exact ⟨fun hl => shuffled_surjective l hl, fun hl => by
        obtain ⟨f, hf⟩ := hl
        rw [← hf]
        exact shuffled_perm f⟩)
    (fun l => (l.take NUM_MINES).toFinset = S.image Fin.val)
  unfold mineSetCount permsWithMines
  rw [← h]
  apply congrArg Finset.card
  apply Finset.filter_congr
  intro f _
  rw [bombIndices_eq_take]

theorem firstCells_card :
    (Finset.univ.filter (fun i : Fin (SIZE * SIZE) => i.val < NUM_MINES)).card = NUM_MINES := by
  decide!

theorem range_mem_permsWithMines :
    List.range (SIZE * SIZE) ∈
      permsWithMines (Finset.univ.filter (fun i : Fin (SIZE * SIZE) => i.val < NUM_MINES)) := by
  rw [mem_permsWithMines]
  refine ⟨List.Perm.refl _, ?_⟩
  decide!

/-- C13: mine placement is uniform.  With the draw of step `i` of `shuffle` an integer in
`0..i` (a draw sequence `DrawSeq`), the map `shuffled` from draw sequences to the output
of `shuffle` on the 100 cell indices is injective and its values are exactly the
permutations of the indices: a bijection.  The mine set is the set of the first
`NUM_MINES` entries, and any two sets `S`, `T` of `NUM_MINES` cell indices are selected
as the mine set by the same number of draw sequences, a positive number. -/
theorem mine_placement_is_uniform :
    Function.Injective shuffled ∧
    (∀ l : List Nat, l.Perm (List.range (SIZE * SIZE)) ↔ ∃ f, shuffled f = l) ∧
    (∀ f : DrawSeq (SIZE * SIZE - 1),
      bombIndices f.toDraws = (shuffled f).take NUM_MINES) ∧
    (∀ S T : Finset (Fin (SIZE * SIZE)), S.card = NUM_MINES → T.card = NUM_MINES →
      mineSetCount S = mineSetCount T) ∧
    ∀ S : Finset (Fin (SIZE * SIZE)), S.card = NUM_MINES → 0 < mineSetCount S := by
  have heq : ∀ S T : Finset (Fin (SIZE * SIZE)), S.card = NUM_MINES → T.card = NUM_MINES →
      mineSetCount S = mineSetCount T := by
    intro S T hS hT
    rw [mineSetCount_eq, mineSetCount_eq]
    exact Nat.le_antisymm (permsWithMines_card_le S T (hS.trans hT.symm))
      (permsWithMines_card_le T S (hT.trans hS.symm))
  refine ⟨shuffled_injective, ?_, bombIndices_eq_take, heq, ?_⟩
  · intro l
    constructor
    · exact shuffled_surjective l
    · rintro ⟨f, rfl⟩
      exact shuffled_perm f
  · intro S hS
    rw [heq S _ hS firstCells_card, mineSetCount_eq]
    exact Finset.card_pos.2 ⟨_, range_mem_permsWithMines⟩

end Minesweeper
